import Mathlib

/-
  Verification development for the adversarial-attack utility library
  (lib/utils.py of the chawins/aml repository).

  Modelling conventions:
  * A floating-point value is modelled by `F := Option ℚ`: `some q` is a
    finite float of exact value `q`, `none` is a non-finite float (NaN or
    an infinity).  Elementwise arithmetic propagates `none` exactly as
    IEEE arithmetic propagates NaN.
  * A sample / image is a `height × width × channel` nested list `FImg`;
    a segmentation mask is a `height × width` list of rationals `Mask2`.
  * The gradient oracle `gradient_input` (lib/keras_utils.py, the
    GradientOracle collaborator of the spec) is an explicit function
    parameter `gradFn`.
  * `np.linalg.norm` computes a real square root, which has no exact
    rational value; it is passed as a function parameter `nrm`.  Theorems
    constrain it only through hypotheses that are true of the Euclidean
    norm (it is zero exactly on the all-zero array, finite and nonzero on
    finite nonzero arrays), and concrete instantiations used in
    counterexamples agree with the Euclidean norm at every array the run in
    question evaluates it on.
-/

namespace Aml

/-- Scalar model of an IEEE floating-point number: `some q` is the finite
value `q`, `none` a non-finite value (NaN or infinity). -/
abbrev F := Option ℚ

/-- Floating-point addition; a non-finite operand contaminates the result. -/
def fadd : F → F → F
  | some a, some b => some (a + b)
  | _, _ => none

/-- Floating-point multiplication; NaN times anything (including zero) is NaN. -/
def fmul : F → F → F
  | some a, some b => some (a * b)
  | _, _ => none

/-- Floating-point division.  Division of a finite float by zero yields a
non-finite value (0/0 = NaN, x/0 = ±Inf); in this program the divisor is an
L2 norm, which vanishes only when every numerator is also zero, so the
non-finite result is always NaN. -/
def fdiv : F → F → F
  | some a, some b => if b = 0 then none else some (a / b)
  | _, _ => none

/-- Model of `np.clip(v, 0, 1)` on one scalar; NaN is left as NaN. -/
def fclip : F → F
  | some q => some (max 0 (min q 1))
  | none => none

/-- Finiteness test for a model float. -/
def isFin : F → Bool
  | some _ => true
  | none => false

/-- Test that a model float is a finite value inside the interval [0,1]. -/
def in01 : F → Bool
  | some q => decide (0 ≤ q) && decide (q ≤ 1)
  | none => false

/-- Image value: height × width × channel nested list of model floats. -/
abbrev FImg := List (List (List F))

/-- Segmentation mask: height × width array of (finite) values. -/
abbrev Mask2 := List (List ℚ)

/-- Map a scalar function over every entry of an image. -/
def map3 (f : F → F) (g : FImg) : FImg :=
  g.map (fun r => r.map (fun p => p.map f))

/-- Combine two images elementwise (numpy broadcasting of two equal-shape
arrays; on ragged model values it truncates like `zipWith`). -/
def zipW3 (f : F → F → F) (a b : FImg) : FImg :=
  List.zipWith (List.zipWith (List.zipWith f)) a b

/-- Model of `-1 * grad` (utils.py lines 334 and 406). -/
def fneg3 (g : FImg) : FImg := map3 (fun a => fmul (some (-1)) a) g

/-- Number of image channels, `N_CHANNEL` of parameters_yolo.py. -/
def N_CHANNEL : Nat := 3

/-- Model of `np.repeat(mask[i, :, :, np.newaxis], N_CHANNEL, axis=2)`
(utils.py lines 340 and 402): broadcast a 2-D mask across channels. -/
def mask_rep (m : Mask2) (nCh : Nat) : FImg :=
  m.map (fun r => r.map (fun v => List.replicate nCh (some v)))

/-- Check a scalar predicate on every entry of an image. -/
def all3 (p : F → Bool) (g : FImg) : Bool :=
  g.all (fun r => r.all (fun px => px.all p))

/-- Threshold constant `MASK_THRES_MIN` (utils.py line 8). -/
def MASK_THRES_MIN : ℚ := 1/10

/-- Threshold constant `MASK_THRES_MAX` (utils.py line 9). -/
def MASK_THRES_MAX : ℚ := 9/10

/-- Model of `check_mask` (utils.py lines 75-79): the mask is valid iff its
area fraction `np.sum(mask) / float(mask.shape[0] * mask.shape[1])` lies
strictly between the two thresholds. -/
def check_mask (mask : Mask2) : Bool :=
  let frac : ℚ := (mask.map (fun r => r.sum)).sum /
    ((mask.length : ℚ) * ((mask.headD []).length : ℚ))
  decide (frac > MASK_THRES_MIN) && decide (frac < MASK_THRES_MAX)

/-- Area fraction of a mask, written directly from the words of the spec
(section 4.3): `sum(mask) / (height * width)`. -/
def specAreaFrac (mask : Mask2) : ℚ :=
  (mask.map (fun r => r.sum)).sum /
    ((mask.length : ℚ) * ((mask.headD []).length : ℚ))

/-- Model of `np.bincount` on a list of (label) naturals: entry `k` holds the
number of occurrences of `k`, for `k` from 0 up to the maximum element.  On an
empty input numpy returns an empty array. -/
def bincount (l : List Nat) : List Nat :=
  if l = [] then [] else (List.range (l.foldl max 0 + 1)).map (fun k => l.count k)

/-- Model of the in-place update `sizes[0] = 0` (utils.py line 292). -/
def zeroHead : List Nat → List Nat
  | [] => []
  | _ :: t => 0 :: t

/-- Model of `np.argmax` on a vector of naturals: the first index holding the
maximum value. -/
def argmaxNat (l : List Nat) : Nat := l.indexOf (l.foldl max 0)

/-- Model of the tail of `find_sign_area` (utils.py lines 289-296), starting
from the connected-component labelling `label_objects` produced by
`ndi.label` on the edge-detected-and-filled image (the Canny detector,
`ndi.binary_fill_holes` and `ndi.label` are external scipy/skimage
collaborators; `ndi.label` assigns 0 to background, so the situation in which
no non-background component exists is exactly an all-zero labelling):

    sizes = np.bincount(label_objects.ravel())
    mask_sizes = np.zeros_like(sizes)
    sizes[0] = 0
    mask_sizes[np.argmax(sizes)] = 1.
    cleaned = mask_sizes[label_objects]

so a pixel of the result is 1 exactly when its label is the argmax of the
zeroed size table. -/
def find_sign_area_labels (lab : List (List Nat)) : Mask2 :=
  let sizes := bincount lab.flatten
  let sel := argmaxNat (zeroHead sizes)
  lab.map (fun r => r.map (fun v => if v = sel then (1 : ℚ) else 0))

/-- Restatement of `check_mask` through the spec-side area fraction; holds
definitionally since the code computes exactly this fraction. -/
theorem check_mask_eq_decide (m : Mask2) :
    check_mask m = (decide (specAreaFrac m > MASK_THRES_MIN) &&
      decide (specAreaFrac m < MASK_THRES_MAX)) := rfl

/-- Folding `max` over a list of zeros leaves the accumulator unchanged. -/
theorem foldl_max_zero (l : List Nat) (h : ∀ v ∈ l, v = 0) :
    ∀ a, l.foldl max a = a := by
  induction l with
  | nil => intro a; rfl
  | cons x t ih =>
    intro a
    have hx : x = 0 := h x (List.mem_cons_self _ _)
    have ht : ∀ v ∈ t, v = 0 := fun v hv => h v (List.mem_cons_of_mem _ hv)
    simp [List.foldl_cons, hx, ih ht]

/-- Sum of a constant map. -/
theorem sum_map_constQ {α : Type} (l : List α) (c : ℚ) :
    ((l.map (fun _ => c)).sum) = l.length * c := by
  induction l with
  | nil => simp
  | cons a t ih => simp [ih]; ring

end Aml

namespace Aml

/-- C6: for every 2-D mask, `check_mask` accepts exactly when the area
fraction sum(m)/(h*w) is strictly above 0.1 and strictly below 0.9; in
particular fractions exactly 0.1 or 0.9 are rejected (shown on a 1×10 mask
with exactly one, resp. nine, foreground pixels). -/
theorem check_mask_strict_interval :
    (∀ m : Mask2, check_mask m = true ↔
      (MASK_THRES_MIN < specAreaFrac m ∧ specAreaFrac m < MASK_THRES_MAX)) ∧
    check_mask [[1, 0, 0, 0, 0, 0, 0, 0, 0, 0]] = false ∧
    check_mask [[1, 1, 1, 1, 1, 1, 1, 1, 1, 0]] = false := by
  refine ⟨fun m => ?_, by norm_num [check_mask, MASK_THRES_MIN, MASK_THRES_MAX],
    by norm_num [check_mask, MASK_THRES_MIN, MASK_THRES_MAX]⟩
  simp [check_mask, specAreaFrac, Bool.and_eq_true, decide_eq_true_iff]

/-- Witness for C6: the theorem applied to a concrete mask of area
fraction 1/2, which is accepted. -/
theorem check_mask_strict_interval_witness :
    check_mask [[1, 1, 1, 1, 1, 0, 0, 0, 0, 0]] = true := by
  refine (check_mask_strict_interval.1 _).2 ?_
  constructor <;> norm_num [specAreaFrac, MASK_THRES_MIN, MASK_THRES_MAX]

end Aml

namespace Aml

/-- C2 counterexample: on a 2×2 labelling with no non-background component
(all labels 0, as produced for instance by a constant grayscale image, on
which the Canny detector finds no edge at all), `find_sign_area` returns the
all-ONES mask, not the all-zero mask the claim states: `sizes[0] = 0` makes
every entry of `sizes` zero, `np.argmax` then returns index 0, and the
background label itself is selected. -/
theorem find_sign_area_no_component_cex :
    find_sign_area_labels [[0, 0], [0, 0]] = [[1, 1], [1, 1]] ∧
    find_sign_area_labels [[0, 0], [0, 0]] ≠ [[0, 0], [0, 0]] := by
  constructor <;> decide

/-- C2 amended: for every nonempty rectangular labelling with no
non-background component (every label 0), the returned mask is all ONES,
and `check_mask` rejects it because its area fraction is 1, which lies
outside the open interval (0.1, 0.9). -/
theorem find_sign_area_no_component (lab : List (List Nat)) (w : Nat)
    (hne : lab ≠ []) (hw : 0 < w) (hrect : ∀ r ∈ lab, r.length = w)
    (hzero : ∀ r ∈ lab, ∀ v ∈ r, v = 0) :
    find_sign_area_labels lab = lab.map (fun r => r.map (fun _ => (1 : ℚ))) ∧
    check_mask (find_sign_area_labels lab) = false := by
  have hflat : ∀ v ∈ lab.flatten, v = 0 := by
    intro v hv
    obtain ⟨r, hr, hvr⟩ := List.mem_flatten.1 hv
    exact hzero r hr v hvr
  obtain ⟨r0, t, rfl⟩ := List.exists_cons_of_ne_nil hne
  have hr0 : r0 ≠ [] := by
    have h1 := hrect r0 (List.mem_cons_self _ _)
    intro h; rw [h] at h1; simp at h1; omega
  have hfne : (r0 :: t).flatten ≠ [] := by
    simp only [List.flatten_cons, ne_eq, List.append_eq_nil]
    intro h
    exact hr0 h.1
  have hbc : bincount (r0 :: t).flatten = [(r0 :: t).flatten.count 0] := by
    rw [bincount, if_neg hfne, foldl_max_zero _ hflat]
    simp [List.range_succ]
  have hsel : argmaxNat (zeroHead (bincount (r0 :: t).flatten)) = 0 := by
    rw [hbc]; rfl
  have hmain : find_sign_area_labels (r0 :: t)
      = (r0 :: t).map (fun r => r.map (fun _ => (1 : ℚ))) := by
    rw [find_sign_area_labels]
    simp only [hsel]
    apply List.map_congr_left
    intro r hr
    apply List.map_congr_left
    intro v hv
    simp [hzero r hr v hv]
  refine ⟨hmain, ?_⟩
  rw [hmain]
  have hsums : (List.map (fun r => r.sum)
      (List.map (fun r => List.map (fun _ => (1 : ℚ)) r) (r0 :: t))).sum
      = ((r0 :: t).length : ℚ) * w := by
    rw [List.map_map]
    have hcg : ((r0 :: t).map ((fun r => r.sum) ∘ (fun r => List.map (fun _ => (1:ℚ)) r)))
        = (r0 :: t).map (fun _ => (w : ℚ)) := by
      apply List.map_congr_left
      intro r hr
      simp only [Function.comp_apply]
      rw [sum_map_constQ, hrect r hr]; ring
    rw [hcg, sum_map_constQ]
  have hfrac : specAreaFrac ((r0 :: t).map (fun r => r.map (fun _ => (1:ℚ)))) = 1 := by
    simp only [specAreaFrac]
    rw [hsums]
    simp only [List.length_map]
    simp only [List.map_cons, List.headD_cons, List.length_map]
    rw [hrect r0 (List.mem_cons_self _ _)]
    have hden : ((r0 :: t).length : ℚ) * (w : ℚ) ≠ 0 := by
      have h1 : (0:ℚ) < ((r0 :: t).length : ℚ) :=
        Nat.cast_pos.mpr (List.length_pos.mpr (List.cons_ne_nil _ _))
      have h2 : (0:ℚ) < (w : ℚ) := by exact_mod_cast hw
      exact ne_of_gt (mul_pos h1 h2)
    exact div_self hden
  rw [check_mask_eq_decide, hfrac]
  norm_num [MASK_THRES_MIN, MASK_THRES_MAX]

/-- Witness for the amended C2: the 1×1 all-background labelling yields the
all-ones mask, which the validator rejects. -/
theorem find_sign_area_no_component_witness :
    find_sign_area_labels [[0]] = [[(1 : ℚ)]] ∧
    check_mask (find_sign_area_labels [[0]]) = false := by
  refine find_sign_area_no_component [[0]] 1 ?_ ?_ ?_ ?_
  · decide
  · decide
  · intro r hr; simp at hr; rw [hr]; rfl
  · intro r hr v hv; simp at hr; rw [hr] at hv; simp at hv; exact hv

end Aml

namespace Aml

/-- Maximum of a list of rationals (0 for the empty list, on which
`np.argmax` would raise instead; no claim evaluates it there). -/
def listMaxQ : List ℚ → ℚ
  | [] => 0
  | a :: t => t.foldl max a

/-- Model of `np.argmax` on a vector of scores: first index attaining the
maximum. -/
def argmaxQ (l : List ℚ) : Nat := l.indexOf (listMaxQ l)

/-- Model of `to_class` (utils.py lines 126-130): `np.argmax(y, axis=1)`,
mapping each row of a score or one-hot matrix to its first-maximum index. -/
def to_class (y : List (List ℚ)) : List Nat := y.map argmaxQ

/-- Model of `np.sum(a == b)` on two equal-length vectors of classes. -/
def countEq (a b : List Nat) : Nat :=
  ((a.zip b).filter (fun p => p.1 == p.2)).length

/-- Model of `np.sum(a != b)` on two equal-length vectors of classes. -/
def countNe (a b : List Nat) : Nat :=
  ((a.zip b).filter (fun p => p.1 != p.2)).length

/-- Dense numpy array of rationals, as a rank-unaware tree: `ndim` of the
model mirrors `np.ndim` on the (rectangular) arrays the program builds. -/
inductive Tensor where
  | leaf (v : ℚ)
  | node (ts : List Tensor)

/-- Model of `x.ndim`: nesting depth measured along the first coordinate,
as for rectangular numpy arrays. -/
def Tensor.ndim : Tensor → Nat
  | .leaf _ => 0
  | .node [] => 1
  | .node (t :: _) => 1 + t.ndim

/-- Result of `eval_adv`: either a single scalar success rate (4-D input)
or one rate per magnitude slice (5-D input). -/
inductive EvalRes where
  | single (r : ℚ)
  | multi (rs : List ℚ)
deriving DecidableEq

/-- Model of `eval_adv` (utils.py lines 232-275).  The keras model is the
abstract parameter `predict`, mapping a batch (a rank-4 tensor) to one row
of class scores per sample.  On a 4-D batch the function returns a single
scalar rate; on a 5-D batch, one rate per magnitude slice, in slice order;
on any other rank the source prints an error message and falls off the end
of the function, returning `None` — modelled as `none`, no partial result. -/
def eval_adv (predict : Tensor → List (List ℚ)) (x_adv : Tensor)
    (y : List (List ℚ)) (target : Bool) : Option EvalRes :=
  let n_sample : ℚ := y.length
  let y_t := to_class y
  if x_adv.ndim = 4 then
    let y_ := to_class (predict x_adv)
    some (.single (if target then (countEq y_t y_ : ℚ) / n_sample
      else (countNe y_t y_ : ℚ) / n_sample))
  else if x_adv.ndim = 5 then
    match x_adv with
    | .node xs =>
        some (.multi (xs.map (fun x =>
          let y_ := to_class (predict x)
          if target then (countEq y_t y_ : ℚ) / n_sample
          else (countNe y_t y_ : ℚ) / n_sample)))
    | .leaf _ => none
  else none

/-- Success rate of one evaluated slice, written from the words of the
claim: matching (targeted) or non-matching (untargeted) prediction count
divided by the number of labels. -/
def specSucRate (target : Bool) (y : List (List ℚ)) (scores : List (List ℚ)) : ℚ :=
  if target then (countEq (to_class y) (to_class scores) : ℚ) / (y.length : ℚ)
  else (countNe (to_class y) (to_class scores) : ℚ) / (y.length : ℚ)

end Aml

namespace Aml

/-- C7: when the adversarial batch has rank neither 4 nor 5, `eval_adv`
returns no partial result: the caller receives `None` (after the usage
error is printed). -/
theorem eval_adv_bad_rank (predict : Tensor → List (List ℚ)) (x_adv : Tensor)
    (y : List (List ℚ)) (target : Bool)
    (h4 : x_adv.ndim ≠ 4) (h5 : x_adv.ndim ≠ 5) :
    eval_adv predict x_adv y target = none := by
  simp [eval_adv, h4, h5]

/-- Witness for C7: a rank-2 batch is rejected with no result. -/
theorem eval_adv_bad_rank_witness :
    eval_adv (fun _ => []) (.node [.node [.leaf 0]]) [] true = none :=
  eval_adv_bad_rank _ _ _ _ (by simp [Tensor.ndim]) (by simp [Tensor.ndim])

/-- C10: the return shape of `eval_adv` depends on the input rank: a 4-D
batch produces a single scalar rate (not a one-element list), a 5-D batch
of k slices produces a list of exactly k rates in slice order, each equal
to the matching (targeted) or non-matching (untargeted) count divided by
the number of labels. -/
theorem eval_adv_rank_shape (predict : Tensor → List (List ℚ))
    (y : List (List ℚ)) (target : Bool) :
    (∀ t : Tensor, t.ndim = 4 →
      eval_adv predict t y target
        = some (.single (specSucRate target y (predict t)))) ∧
    (∀ ts : List Tensor, (Tensor.node ts).ndim = 5 →
      eval_adv predict (.node ts) y target
        = some (.multi (ts.map (fun s => specSucRate target y (predict s)))) ∧
      (ts.map (fun s => specSucRate target y (predict s))).length = ts.length) := by
  constructor
  · intro t h4
    simp [eval_adv, h4, specSucRate]
  · intro ts h5
    have h4 : (Tensor.node ts).ndim ≠ 4 := by rw [h5]; decide
    refine ⟨?_, by simp⟩
    simp [eval_adv, h4, h5, specSucRate]

/-- Witness for C10: a concrete 4-D batch of two samples where the
targeted success rate is 1/2, and a 5-D batch of two slices giving a
two-element list. -/
theorem eval_adv_rank_shape_witness :
    (eval_adv (fun _ => [[0, 1], [0, 1]]) (.node [.node [.node [.node [.leaf 0]]]])
        [[1, 0], [0, 1]] true
      = some (.single (specSucRate true [[1, 0], [0, 1]] [[0, 1], [0, 1]]))) ∧
    (eval_adv (fun _ => [[0, 1], [0, 1]])
        (.node [.node [.node [.node [.node [.leaf 0]]]],
                .node [.node [.node [.node [.leaf 0]]]]])
        [[1, 0], [0, 1]] true
      = some (.multi [specSucRate true [[1, 0], [0, 1]] [[0, 1], [0, 1]],
                      specSucRate true [[1, 0], [0, 1]] [[0, 1], [0, 1]]])) := by
  constructor
  · exact (eval_adv_rank_shape _ _ _).1 _ (by simp [Tensor.ndim])
  · exact ((eval_adv_rank_shape (fun _ => [[0, 1], [0, 1]]) [[1, 0], [0, 1]] true).2
      [.node [.node [.node [.node [.leaf 0]]]],
       .node [.node [.node [.node [.leaf 0]]]]] (by simp [Tensor.ndim])).1

end Aml

namespace Aml

/-- Model of `np.where(a != b)[0]` on two equal-length class vectors with a
running index: the ascending indices at which the vectors differ. -/
def neqIdx : List Nat → List Nat → Nat → List Nat
  | a :: as, b :: bs, i =>
      if a ≠ b then i :: neqIdx as bs (i + 1) else neqIdx as bs (i + 1)
  | _, _, _ => []

/-- Model of `np.where(a == b)[0]`: ascending indices at which the two class
vectors agree. -/
def eqIdx : List Nat → List Nat → Nat → List Nat
  | a :: as, b :: bs, i =>
      if a = b then i :: eqIdx as bs (i + 1) else eqIdx as bs (i + 1)
  | _, _, _ => []

/-- Model of `np.delete(x, ids, axis=0)`: drop the rows whose index occurs
in `ids`. -/
def npDelete {α : Type} (x : List α) (ids : List Nat) : List α :=
  (x.enum.filter (fun p => decide (p.1 ∉ ids))).map Prod.snd

/-- Model of `filter_samples` (utils.py lines 196-229).  `predict` is the
abstract keras model.  Indices of misclassified samples, plus (when a target
is given) indices already classified as the target, are collected, sorted
and de-duplicated (`np.sort(np.unique(...))`), and the corresponding rows
are deleted from `x` and `y`. -/
def filter_samples {α : Type} (predict : List α → List (List ℚ))
    (x : List α) (y : List (List ℚ)) (y_target : Option (List (List ℚ))) :
    List α × List (List ℚ) × List Nat :=
  let y_ := to_class (predict x)
  let y_true := to_class y
  let del0 := neqIdx y_ y_true 0
  let del1 := match y_target with
    | some yt => del0 ++ eqIdx y_ (to_class yt) 0
    | none => del0
  let del_id := List.insertionSort (· ≤ ·) del1.dedup
  (npDelete x del_id, npDelete y del_id, del_id)

/-- Comparing a class vector with itself yields no differing index. -/
theorem neqIdx_self (l : List Nat) : ∀ i, neqIdx l l i = [] := by
  induction l with
  | nil => intro i; rfl
  | cons a t ih => intro i; simp [neqIdx, ih]

/-- Deleting an empty index list leaves the array unchanged. -/
theorem npDelete_nil {α : Type} (x : List α) : npDelete x [] = x := by
  simp [npDelete]

/-- C9: when every sample is predicted as its true class and no target is
given, `filter_samples` returns the inputs unchanged with an empty
removed-index list; and for every (optional) target, the removed-index list
is sorted and duplicate-free. -/
theorem filter_samples_correct {α : Type} (predict : List α → List (List ℚ))
    (x : List α) (y : List (List ℚ)) :
    (to_class (predict x) = to_class y →
        filter_samples predict x y none = (x, y, [])) ∧
    (∀ y_target, ((filter_samples predict x y y_target).2.2).Sorted (· ≤ ·) ∧
        ((filter_samples predict x y y_target).2.2).Nodup) := by
  constructor
  · intro h
    simp only [filter_samples, h, neqIdx_self, List.dedup_nil]
    simp [npDelete_nil, List.insertionSort]
  · intro yt
    constructor
    · exact List.sorted_insertionSort _ _
    · exact ((List.perm_insertionSort _ _).symm).nodup (List.nodup_dedup _)

/-- Witness for C9: a two-sample batch classified correctly everywhere is
returned unchanged with no removed index. -/
theorem filter_samples_correct_witness :
    filter_samples (fun _ => [[0, 1], [1, 0]]) [10, 20] [[0, 1], [1, 0]] none
      = ([10, 20], [[0, 1], [1, 0]], []) :=
  (filter_samples_correct (fun _ => [[0, 1], [1, 0]]) [10, 20] [[0, 1], [1, 0]]).1
    (by decide)

end Aml

namespace Aml

/-- Gradient-direction selection of `fg` (utils.py lines 333-336): the
gradient is negated exactly when `target` is true. -/
def gradSelFg (target : Bool) (g : FImg) : FImg :=
  if target then fneg3 g else g

/-- Gradient-direction selection of `iterative` (utils.py lines 405-408):
the source tests `target is not None`, so the gradient is negated whenever
`target` is any boolean at all, `False` included; only an explicit `None`
argument takes the non-negated branch. -/
def gradSelIter (target : Option Bool) (g : FImg) : FImg :=
  if target.isSome then fneg3 g else g

/-- Mask application shared by both attacks (utils.py lines 338-341 and
410-412): multiply the gradient elementwise with the channel-broadcast
mask; no mask leaves the gradient untouched. -/
def applyMask (mask_i : Option Mask2) (nCh : Nat) (g : FImg) : FImg :=
  match mask_i with
  | some m => zipW3 fmul g (mask_rep m nCh)
  | none => g

/-- Model of `grad /= np.linalg.norm(grad)` (utils.py lines 343-347 and
414-418).  The surrounding `try: ... except ZeroDivisionError: raise` of the
source never fires: numpy elementwise division of a float array raises
nothing for a zero divisor, it emits a warning and produces non-finite
values, so no error channel exists in the model and a zero norm silently
yields `none` entries. -/
def normalizeBy (nrm : FImg → F) (g : FImg) : FImg :=
  map3 (fun a => fdiv a (nrm g)) g

/-- Normalized, masked, direction-adjusted gradient of one `fg` sample
(utils.py lines 332-347). -/
def fgNormGrad (nrm : FImg → F) (gradFn : FImg → List ℚ → FImg)
    (target : Bool) (mask_i : Option Mask2) (nCh : Nat)
    (x_in : FImg) (y_i : List ℚ) : FImg :=
  normalizeBy nrm (applyMask mask_i nCh (gradSelFg target (gradFn x_in y_i)))

/-- One magnitude slot of one `fg` sample: `x_in + grad * mag`, with the
final `np.clip(x_adv, 0, 1)` of line 359 applied elementwise. -/
def fgSlot (nrm : FImg → F) (gradFn : FImg → List ℚ → FImg)
    (target : Bool) (mask_i : Option Mask2) (nCh : Nat)
    (x_in : FImg) (y_i : List ℚ) (mag : ℚ) : FImg :=
  map3 fclip (zipW3 fadd x_in
    (map3 (fun a => fmul a (some mag)) (fgNormGrad nrm gradFn target mask_i nCh x_in y_i)))

/-- Model of `fg` (utils.py lines 299-361), indexed magnitude-major like the
source array `x_adv[j, i]`.  The source iterates `for i, x_in in
enumerate(x)` reading `y[i]` and `mask[i]`, computing the per-sample
gradient once and reusing it for every magnitude; the model pairs the
batches by zipping (identical for aligned batches) and recomputes the
per-sample gradient in each slot (identical since the gradient oracle is a
function). -/
def fg (nrm : FImg → F) (gradFn : FImg → List ℚ → FImg)
    (x : List FImg) (y : List (List ℚ)) (mag_list : List ℚ)
    (target : Bool) (mask : Option (List Mask2)) : List (List FImg) :=
  mag_list.map (fun mag =>
    match mask with
    | none => (x.zip y).map (fun p => fgSlot nrm gradFn target none N_CHANNEL p.1 p.2 mag)
    | some ms => ((x.zip y).zip ms).map (fun q =>
        fgSlot nrm gradFn target (some q.2) N_CHANNEL q.1.1 q.1.2 mag))

/-- One loop iteration of `iterative` (utils.py lines 404-422): recompute
the gradient at the current sample, select direction, mask, normalize, take
a `step_size` step and clip immediately. -/
def iterStepImg (nrm : FImg → F) (gradFn : FImg → List ℚ → FImg)
    (target : Option Bool) (mask_i : Option Mask2) (nCh : Nat)
    (y_i : List ℚ) (step_size : ℚ) (x_cur : FImg) : FImg :=
  map3 fclip (zipW3 fadd x_cur
    (map3 (fun a => fmul a (some step_size))
      (normalizeBy nrm (applyMask mask_i nCh (gradSelIter target (gradFn x_cur y_i))))))

/-- One sample of `iterative`: `n_step` iterations starting from a private
copy of the input (utils.py lines 397-424; defaults `n_step=20`,
`step_size=0.05`). -/
def iterSample (nrm : FImg → F) (gradFn : FImg → List ℚ → FImg)
    (target : Option Bool) (mask_i : Option Mask2) (nCh : Nat)
    (y_i : List ℚ) (n_step : Nat) (step_size : ℚ) (x_in : FImg) : FImg :=
  (iterStepImg nrm gradFn target mask_i nCh y_i step_size)^[n_step] x_in

/-- Model of `iterative` (utils.py lines 364-432). -/
def iterative (nrm : FImg → F) (gradFn : FImg → List ℚ → FImg)
    (x : List FImg) (y : List (List ℚ)) (n_step : Nat) (step_size : ℚ)
    (target : Option Bool) (mask : Option (List Mask2)) : List FImg :=
  match mask with
  | none => (x.zip y).map (fun p =>
      iterSample nrm gradFn target none N_CHANNEL p.2 n_step step_size p.1)
  | some ms => ((x.zip y).zip ms).map (fun q =>
      iterSample nrm gradFn target (some q.2) N_CHANNEL q.1.2 n_step step_size q.1.1)

/-- Norm function used by the concrete counterexample runs: zero on an
all-zero array, one otherwise.  It agrees with the Euclidean norm
`np.linalg.norm` on every all-zero array, and those are the only arrays the
counterexample runs evaluate it on. -/
def nrmW : FImg → F :=
  fun g => if all3 (fun a => a == some 0) g = true then some 0 else some 1

end Aml

namespace Aml

/-- C1 counterexample: with gradient g = [[[1]]], `fg` negates exactly when
`target` is true, but `iterative` negates for BOTH boolean values of
`target` (its branch tests `target is not None`, and `False` is not
`None`), so in `iterative` the targeted gradient is NOT the negation of the
untargeted gradient, and a full untargeted `iterative` run coincides with
the targeted one while the corresponding `fg` runs differ. -/
theorem target_sign_convention_cex :
    gradSelFg true [[[some 1]]] = fneg3 [[[some 1]]] ∧
    gradSelFg false [[[some 1]]] = [[[some 1]]] ∧
    gradSelIter (some true) [[[some 1]]] = fneg3 [[[some 1]]] ∧
    gradSelIter (some false) [[[some 1]]] = fneg3 [[[some 1]]] ∧
    gradSelIter (some true) [[[some 1]]] ≠ fneg3 (gradSelIter (some false) [[[some 1]]]) ∧
    iterative nrmW (fun _ _ => [[[some 1]]]) [[[[some (1/2)]]]] [[1]] 1 (1/4) (some false) none
      = iterative nrmW (fun _ _ => [[[some 1]]]) [[[[some (1/2)]]]] [[1]] 1 (1/4) (some true) none ∧
    fg nrmW (fun _ _ => [[[some 1]]]) [[[[some (1/2)]]]] [[1]] [1/4] false none
      ≠ fg nrmW (fun _ _ => [[[some 1]]]) [[[[some (1/2)]]]] [[1]] [1/4] true none := by
  refine ⟨rfl, rfl, rfl, ?_, ?_, ?_, ?_⟩
  · norm_num [gradSelIter, fneg3, map3, fmul]
  · norm_num [gradSelIter, fneg3, map3, fmul]
  · norm_num [iterative, iterSample, iterStepImg, normalizeBy, applyMask, gradSelIter,
      map3, zipW3, fneg3, fadd, fmul, fdiv, fclip, nrmW, all3, Function.iterate_one]
  · norm_num [fg, fgSlot, fgNormGrad, normalizeBy, applyMask, gradSelFg,
      map3, zipW3, fneg3, fadd, fmul, fdiv, fclip, nrmW, all3]

end Aml

namespace Aml

/-- C3: on a sample whose gradient is identically zero (so its L2 norm is
zero), neither `fg` nor `iterative` signals any error: numpy elementwise
division by the zero norm raises no `ZeroDivisionError` (the `except`
branch of the source is dead code), the division produces NaN, and the
returned batches silently hold non-finite entries — entries that are not
finite values in [0,1]. -/
theorem zero_grad_silent_nan :
    fg nrmW (fun _ _ => [[[some 0]]]) [[[[some (1/2)]]]] [[1]] [1/10] false none
      = [[[[[none]]]]] ∧
    iterative nrmW (fun _ _ => [[[some 0]]]) [[[[some (1/2)]]]] [[1]] 1 (1/20) (some false) none
      = [[[[none]]]] ∧
    all3 isFin [[[none]]] = false := by
  refine ⟨?_, ?_, by decide⟩
  · norm_num [fg, fgSlot, fgNormGrad, normalizeBy, applyMask, gradSelFg,
      map3, zipW3, fneg3, fadd, fmul, fdiv, fclip, nrmW, all3]
  · norm_num [iterative, iterSample, iterStepImg, normalizeBy, applyMask, gradSelIter,
      map3, zipW3, fneg3, fadd, fmul, fdiv, fclip, nrmW, all3, Function.iterate_one]

end Aml

namespace Aml

/-- Mapping preserves an `all` bound given a pointwise transfer. -/
theorem list_all_map {α β : Type} (f : α → β) (p : α → Bool) (q : β → Bool)
    (h : ∀ a, p a = true → q (f a) = true) :
    ∀ l : List α, l.all p = true → (l.map f).all q = true := by
  intro l hl
  induction l with
  | nil => rfl
  | cons a t ih =>
    simp only [List.all_cons, Bool.and_eq_true] at hl
    simp only [List.map_cons, List.all_cons, Bool.and_eq_true]
    exact ⟨h a hl.1, ih hl.2⟩

/-- Zipping preserves `all` bounds given a pointwise transfer. -/
theorem list_all_zipWith {α β γ : Type} (f : α → β → γ)
    (p : α → Bool) (q : β → Bool) (r : γ → Bool)
    (h : ∀ u v, p u = true → q v = true → r (f u v) = true) :
    ∀ (a : List α) (b : List β), a.all p = true → b.all q = true →
      (List.zipWith f a b).all r = true := by
  intro a
  induction a with
  | nil => intro b _ _; rfl
  | cons u us ih =>
    intro b ha hb
    cases b with
    | nil => rfl
    | cons v vs =>
      simp only [List.all_cons, Bool.and_eq_true] at ha hb
      simp only [List.zipWith_cons_cons, List.all_cons, Bool.and_eq_true]
      exact ⟨h u v ha.1 hb.1, ih vs ha.2 hb.2⟩

/-- Monotonicity of `all`. -/
theorem list_all_mono {α : Type} (p q : α → Bool) (h : ∀ a, p a = true → q a = true) :
    ∀ l : List α, l.all p = true → l.all q = true := by
  intro l hl
  induction l with
  | nil => rfl
  | cons a t ih =>
    simp only [List.all_cons, Bool.and_eq_true] at hl ⊢
    exact ⟨h a hl.1, ih hl.2⟩

/-- Pointwise transfer through `map3`. -/
theorem all3_map3 (f : F → F) (p q : F → Bool)
    (h : ∀ a, p a = true → q (f a) = true)
    (g : FImg) (hg : all3 p g = true) : all3 q (map3 f g) = true := by
  unfold all3 map3 at *
  exact list_all_map _ _ _ (fun r hr => list_all_map _ _ _ (fun px hpx =>
    list_all_map _ _ _ h px hpx) r hr) g hg

/-- Pointwise transfer through `zipW3`. -/
theorem all3_zipW3 (f : F → F → F) (p q r : F → Bool)
    (h : ∀ u v, p u = true → q v = true → r (f u v) = true)
    (a b : FImg) (ha : all3 p a = true) (hb : all3 q b = true) :
    all3 r (zipW3 f a b) = true := by
  unfold all3 zipW3 at *
  exact list_all_zipWith _ _ _ _ (fun ru rv hru hrv =>
    list_all_zipWith _ _ _ _ (fun pu pv hpu hpv =>
      list_all_zipWith _ _ _ _ h pu pv hpu hpv) ru rv hru hrv) a b ha hb

/-- Monotonicity of `all3`. -/
theorem all3_mono (p q : F → Bool) (h : ∀ a, p a = true → q a = true)
    (g : FImg) (hg : all3 p g = true) : all3 q g = true := by
  unfold all3 at *
  exact list_all_mono _ _ (fun r hr => list_all_mono _ _ (fun px hpx =>
    list_all_mono _ _ h px hpx) r hr) g hg

/-- Every image satisfies the trivial bound. -/
theorem all3_true (g : FImg) : all3 (fun _ => true) g = true := by
  simp [all3, List.all_eq_true]

/-- Lists of replicated finite values are all finite. -/
theorem all_replicate_fin (n : Nat) (v : ℚ) :
    (List.replicate n (some v) : List F).all isFin = true := by
  induction n with
  | zero => rfl
  | succ k ih => simp only [List.replicate_succ, List.all_cons, Bool.and_eq_true]; exact ⟨rfl, ih⟩

/-- Trivial `all` bound. -/
theorem list_all_trivial {α : Type} (l : List α) : (l.all fun _ => true) = true := by
  induction l with
  | nil => rfl
  | cons a t ih => simp only [List.all_cons, Bool.and_eq_true]; exact ⟨trivial, ih⟩

/-- Broadcast masks have only finite entries. -/
theorem all3_mask_rep (m : Mask2) (nCh : Nat) : all3 isFin (mask_rep m nCh) = true := by
  unfold all3 mask_rep
  exact list_all_map _ (fun _ => true) _
    (fun mr _ => list_all_map _ (fun _ => true) _
      (fun v _ => all_replicate_fin nCh v) mr (list_all_trivial mr))
    m (list_all_trivial m)

/-- Constant-valued images have only finite entries. -/
theorem all3_map3_const_fin (v : ℚ) (g : FImg) :
    all3 isFin (map3 (fun _ => some v) g) = true :=
  all3_map3 (fun _ => some v) (fun _ => true) isFin (fun _ _ => rfl) g (all3_true g)

/-- Finite values in [0,1] are finite. -/
theorem isFin_of_in01 (a : F) (h : in01 a = true) : isFin a = true := by
  cases a with
  | none => exact Bool.noConfusion h
  | some q => rfl

/-- Clipping a finite value lands in [0,1]. -/
theorem in01_fclip (a : F) (h : isFin a = true) : in01 (fclip a) = true := by
  cases a with
  | none => exact Bool.noConfusion h
  | some q =>
    simp only [fclip, in01, Bool.and_eq_true, decide_eq_true_iff]
    exact ⟨le_max_left _ _, max_le (by norm_num) (min_le_right _ _)⟩

/-- Addition of finite values is finite. -/
theorem isFin_fadd (u v : F) (hu : isFin u = true) (hv : isFin v = true) :
    isFin (fadd u v) = true := by
  cases u with
  | none => exact Bool.noConfusion hu
  | some a => cases v with
    | none => exact Bool.noConfusion hv
    | some b => rfl

/-- Multiplication of finite values is finite. -/
theorem isFin_fmul (u v : F) (hu : isFin u = true) (hv : isFin v = true) :
    isFin (fmul u v) = true := by
  cases u with
  | none => exact Bool.noConfusion hu
  | some a => cases v with
    | none => exact Bool.noConfusion hv
    | some b => rfl

/-- Division of a finite value by a finite nonzero value is finite. -/
theorem isFin_fdiv (u : F) (c : ℚ) (hu : isFin u = true) (hc : c ≠ 0) :
    isFin (fdiv u (some c)) = true := by
  cases u with
  | none => exact Bool.noConfusion hu
  | some a => simp [fdiv, hc, isFin]

/-- The direction-selected gradient of `iterative` stays finite. -/
theorem all3_isFin_gradSelIter (target : Option Bool) (g : FImg)
    (hg : all3 isFin g = true) : all3 isFin (gradSelIter target g) = true := by
  unfold gradSelIter
  by_cases ht : target.isSome
  · simp only [ht, if_true]
    exact all3_map3 _ isFin isFin
      (fun a ha => isFin_fmul (some (-1)) a rfl ha) g hg
  · simp only [ht, if_false]
    exact hg

/-- The direction-selected gradient of `fg` stays finite. -/
theorem all3_isFin_gradSelFg (target : Bool) (g : FImg)
    (hg : all3 isFin g = true) : all3 isFin (gradSelFg target g) = true := by
  unfold gradSelFg
  by_cases ht : target
  · simp only [ht, if_true]
    exact all3_map3 _ isFin isFin (fun a ha => isFin_fmul (some (-1)) a rfl ha) g hg
  · simp only [ht, if_false]
    exact hg

/-- The masked gradient stays finite. -/
theorem all3_isFin_applyMask (mask_i : Option Mask2) (nCh : Nat) (g : FImg)
    (hg : all3 isFin g = true) : all3 isFin (applyMask mask_i nCh g) = true := by
  cases mask_i with
  | none => exact hg
  | some m =>
    exact all3_zipW3 _ isFin isFin isFin (fun u v hu hv => isFin_fmul u v hu hv)
      _ _ hg (all3_mask_rep m nCh)

/-- Normalizing by a finite nonzero norm value keeps the array finite. -/
theorem all3_isFin_normalizeBy (nrm : FImg → F) (g : FImg) (c : ℚ)
    (hc : nrm g = some c) (hcne : c ≠ 0)
    (hg : all3 isFin g = true) : all3 isFin (normalizeBy nrm g) = true := by
  unfold normalizeBy
  rw [hc]
  exact all3_map3 _ isFin isFin (fun a ha => isFin_fdiv a c ha hcne) g hg

end Aml

namespace Aml

/-- One iteration of `iterative` maps a finite [0,1] sample to a finite
[0,1] sample, provided the oracle returns finite gradients and the norm is
finite and nonzero on finite arrays (no degenerate gradient). -/
theorem iterStep_in01 (nrm : FImg → F) (gradFn : FImg → List ℚ → FImg)
    (target : Option Bool) (mask_i : Option Mask2) (nCh : Nat)
    (y_i : List ℚ) (step_size : ℚ)
    (hg : ∀ s yv, all3 isFin (gradFn s yv) = true)
    (hn : ∀ g, all3 isFin g = true → ∃ c, nrm g = some c ∧ c ≠ 0)
    (xc : FImg) (hxc : all3 in01 xc = true) :
    all3 in01 (iterStepImg nrm gradFn target mask_i nCh y_i step_size xc) = true := by
  have h1 : all3 isFin (gradSelIter target (gradFn xc y_i)) = true :=
    all3_isFin_gradSelIter target _ (hg xc y_i)
  have h2 : all3 isFin (applyMask mask_i nCh (gradSelIter target (gradFn xc y_i))) = true :=
    all3_isFin_applyMask mask_i nCh _ h1
  obtain ⟨c, hc, hcne⟩ := hn _ h2
  have h3 : all3 isFin (normalizeBy nrm
      (applyMask mask_i nCh (gradSelIter target (gradFn xc y_i)))) = true :=
    all3_isFin_normalizeBy nrm _ c hc hcne h2
  have h4 : all3 isFin (map3 (fun a => fmul a (some step_size))
      (normalizeBy nrm (applyMask mask_i nCh (gradSelIter target (gradFn xc y_i))))) = true :=
    all3_map3 _ isFin isFin (fun a ha => isFin_fmul a (some step_size) ha rfl) _ h3
  have h5 : all3 isFin (zipW3 fadd xc (map3 (fun a => fmul a (some step_size))
      (normalizeBy nrm (applyMask mask_i nCh (gradSelIter target (gradFn xc y_i)))))) = true :=
    all3_zipW3 fadd in01 isFin isFin
      (fun u v hu hv => isFin_fadd u v (isFin_of_in01 u hu) hv) _ _ hxc h4
  exact all3_map3 fclip isFin in01 in01_fclip _ h5

/-- A whole per-sample run of `iterative` keeps every entry a finite value
in [0,1], for any number of steps. -/
theorem iterSample_in01 (nrm : FImg → F) (gradFn : FImg → List ℚ → FImg)
    (target : Option Bool) (mask_i : Option Mask2) (nCh : Nat)
    (y_i : List ℚ) (step_size : ℚ)
    (hg : ∀ s yv, all3 isFin (gradFn s yv) = true)
    (hn : ∀ g, all3 isFin g = true → ∃ c, nrm g = some c ∧ c ≠ 0)
    (x_in : FImg) (hx : all3 in01 x_in = true) :
    ∀ n, all3 in01 (iterSample nrm gradFn target mask_i nCh y_i n step_size x_in) = true := by
  intro n
  induction n with
  | zero => simpa [iterSample] using hx
  | succ k ih =>
    unfold iterSample at ih ⊢
    rw [Function.iterate_succ_apply']
    exact iterStep_in01 nrm gradFn target mask_i nCh y_i step_size hg hn _ ih

/-- C4 amended: for every input batch of samples with all entries finite in
[0,1], provided the gradient oracle returns finite gradients and no
gradient with zero (or non-finite) norm arises, every sample of
`iterative`'s output has all entries in [0,1] for EVERY step count — since
the sample state after k of n steps equals the output of a k-step run, this
covers every intermediate per-step value, each clipped to [0,1] immediately
after its step, as well as the final result. -/
theorem iterative_in01 (nrm : FImg → F) (gradFn : FImg → List ℚ → FImg)
    (x : List FImg) (y : List (List ℚ)) (step_size : ℚ)
    (target : Option Bool) (mask : Option (List Mask2))
    (hx : ∀ xi ∈ x, all3 in01 xi = true)
    (hg : ∀ s yv, all3 isFin (gradFn s yv) = true)
    (hn : ∀ g, all3 isFin g = true → ∃ c, nrm g = some c ∧ c ≠ 0) :
    ∀ n_step, ∀ out ∈ iterative nrm gradFn x y n_step step_size target mask,
      all3 in01 out = true := by
  intro n out hout
  unfold iterative at hout
  cases mask with
  | none =>
    obtain ⟨⟨xi, yi⟩, hp, rfl⟩ := List.mem_map.1 hout
    exact iterSample_in01 nrm gradFn target none N_CHANNEL yi step_size hg hn xi
      (hx xi (List.of_mem_zip hp).1) n
  | some ms =>
    obtain ⟨⟨⟨xi, yi⟩, mi⟩, hq, rfl⟩ := List.mem_map.1 hout
    exact iterSample_in01 nrm gradFn target (some mi) N_CHANNEL yi step_size hg hn xi
      (hx xi (List.of_mem_zip (List.of_mem_zip hq).1).1) n

/-- Witness for the amended C4: a two-step targeted run from 1/2 with a
constant unit gradient and unit norm ends at 2/5, a finite value in
[0,1]. -/
theorem iterative_in01_witness : all3 in01 [[[some ((2 : ℚ)/5)]]] = true := by
  refine iterative_in01 (fun _ => some 1) (fun s _ => map3 (fun _ => some 1) s)
    [[[[some (1/2)]]]] [[1]] (1/20) (some true) none ?_ ?_ ?_ 2 [[[some ((2 : ℚ)/5)]]] ?_
  · intro xi hxi
    rw [List.mem_singleton.1 hxi]
    norm_num [all3, in01]
  · intro s yv
    exact all3_map3_const_fin 1 s
  · intro g _
    exact ⟨1, rfl, one_ne_zero⟩
  · norm_num [iterative, iterSample, iterStepImg, normalizeBy, applyMask, gradSelIter,
      map3, zipW3, fneg3, fadd, fmul, fdiv, fclip, Function.iterate_succ, Function.iterate_zero]

/-- C4 counterexample: with a mask that is zero everywhere (a mask the
validator would reject, but the attack performs no validation), the masked
gradient is the zero array, its norm is zero, the division produces NaN,
and the output of `iterative` is NOT elementwise in [0,1] — the claim as
stated, quantifying only over the input batch, fails. -/
theorem iterative_in01_cex :
    iterative nrmW (fun s _ => map3 (fun _ => some 1) s)
      [[[[some (1/2), some (1/2), some (1/2)]]]] [[1]] 1 (1/20) (some true)
      (some [[[0]]])
      = [[[[none, none, none]]]] ∧
    ([[[[none, none, none]]]] : List FImg).all (all3 in01) = false := by
  refine ⟨?_, by decide⟩
  norm_num [iterative, iterSample, iterStepImg, normalizeBy, applyMask, gradSelIter,
    map3, zipW3, fneg3, fadd, fmul, fdiv, fclip, nrmW, all3, mask_rep, N_CHANNEL,
    List.replicate_succ, Function.iterate_one]

end Aml

namespace Aml

/-- Entry of a 2-D mask at row `r`, column `c` (`none` when out of range). -/
def get2? (m : Mask2) (r c : Nat) : Option ℚ :=
  (m[r]?).bind (fun row => row[c]?)

/-- Entry of an image at row `r`, column `c`, channel `ch` (`none` when out
of range). -/
def get3? (g : FImg) (r c ch : Nat) : Option F :=
  ((g[r]?).bind (fun row => row[c]?)).bind (fun px => px[ch]?)

/-- Shape equality of two image rows: same number of pixels, each pixel
with the same number of channels. -/
def sameShapeRow : List (List F) → List (List F) → Bool
  | [], [] => true
  | p :: ps, q :: qs => (p.length == q.length) && sameShapeRow ps qs
  | _, _ => false

/-- Shape equality of two images (rectangularity is not assumed; the model
compares the full nested structure, which is what numpy shape equality
means on the arrays the program builds). -/
def sameShape3 : FImg → FImg → Bool
  | [], [] => true
  | r :: rs, s :: ss => sameShapeRow r s && sameShape3 rs ss
  | _, _ => false

/-- A 2-D mask row fits an image row when they have the same number of
pixels and every pixel has exactly `nCh` channels. -/
def maskFitsRow (nCh : Nat) : List ℚ → List (List F) → Bool
  | [], [] => true
  | _ :: ms, px :: pxs => (px.length == nCh) && maskFitsRow nCh ms pxs
  | _, _ => false

/-- A 2-D mask fits an image when their heights and widths agree and the
image has `nCh` channels everywhere, i.e. the shapes that make
`grad *= np.repeat(mask[i,:,:,np.newaxis], N_CHANNEL, axis=2)` a legal
broadcast. -/
def maskFits (nCh : Nat) : Mask2 → FImg → Bool
  | [], [] => true
  | mr :: mrs, gr :: grs => maskFitsRow nCh mr gr && maskFits nCh mrs grs
  | _, _ => false

/-- Shape equality is reflexive (rows). -/
theorem sameShapeRow_refl (p : List (List F)) : sameShapeRow p p = true := by
  induction p with
  | nil => rfl
  | cons a t ih => simp [sameShapeRow, ih]

/-- Shape equality is reflexive. -/
theorem sameShape3_refl (g : FImg) : sameShape3 g g = true := by
  induction g with
  | nil => rfl
  | cons a t ih => simp [sameShape3, sameShapeRow_refl, ih]

/-- Shape equality is symmetric (rows). -/
theorem sameShapeRow_symm (p q : List (List F)) (h : sameShapeRow p q = true) :
    sameShapeRow q p = true := by
  induction p generalizing q with
  | nil => cases q with
    | nil => rfl
    | cons b s => exact Bool.noConfusion h
  | cons a t ih => cases q with
    | nil => exact Bool.noConfusion h
    | cons b s =>
      simp only [sameShapeRow, Bool.and_eq_true, beq_iff_eq] at h ⊢
      exact ⟨h.1.symm, ih s h.2⟩

/-- Shape equality is symmetric. -/
theorem sameShape3_symm (a b : FImg) (h : sameShape3 a b = true) :
    sameShape3 b a = true := by
  induction a generalizing b with
  | nil => cases b with
    | nil => rfl
    | cons r s => exact Bool.noConfusion h
  | cons r rs ih => cases b with
    | nil => exact Bool.noConfusion h
    | cons t ts =>
      simp only [sameShape3, Bool.and_eq_true] at h ⊢
      exact ⟨sameShapeRow_symm _ _ h.1, ih ts h.2⟩

/-- Shape equality is transitive (rows). -/
theorem sameShapeRow_trans (p q s : List (List F)) (h1 : sameShapeRow p q = true)
    (h2 : sameShapeRow q s = true) : sameShapeRow p s = true := by
  induction p generalizing q s with
  | nil => cases q with
    | nil => exact h2
    | cons b t => exact Bool.noConfusion h1
  | cons a t ih => cases q with
    | nil => exact Bool.noConfusion h1
    | cons b u => cases s with
      | nil => exact Bool.noConfusion h2
      | cons c v =>
        simp only [sameShapeRow, Bool.and_eq_true, beq_iff_eq] at h1 h2 ⊢
        exact ⟨h1.1.trans h2.1, ih u v h1.2 h2.2⟩

/-- Shape equality is transitive. -/
theorem sameShape3_trans (a b c : FImg) (h1 : sameShape3 a b = true)
    (h2 : sameShape3 b c = true) : sameShape3 a c = true := by
  induction a generalizing b c with
  | nil => cases b with
    | nil => exact h2
    | cons r s => exact Bool.noConfusion h1
  | cons r rs ih => cases b with
    | nil => exact Bool.noConfusion h1
    | cons t ts => cases c with
      | nil => exact Bool.noConfusion h2
      | cons u us =>
        simp only [sameShape3, Bool.and_eq_true] at h1 h2 ⊢
        exact ⟨sameShapeRow_trans _ _ _ h1.1 h2.1, ih ts us h1.2 h2.2⟩

/-- Mapping a scalar function preserves the shape (rows). -/
theorem sameShapeRow_map (f : F → F) (p : List (List F)) :
    sameShapeRow (p.map (fun px => px.map f)) p = true := by
  induction p with
  | nil => rfl
  | cons a t ih => simp [sameShapeRow, ih]

/-- map3 preserves the shape. -/
theorem sameShape3_map3 (f : F → F) (g : FImg) :
    sameShape3 (map3 f g) g = true := by
  induction g with
  | nil => rfl
  | cons r rs ih =>
    simp only [map3, List.map_cons, sameShape3, Bool.and_eq_true]
    exact ⟨sameShapeRow_map f r, ih⟩

/-- Zipping two equal-shape rows keeps the first shape. -/
theorem sameShapeRow_zipWith (f : F → F → F) (p q : List (List F))
    (h : sameShapeRow p q = true) :
    sameShapeRow (List.zipWith (List.zipWith f) p q) p = true := by
  induction p generalizing q with
  | nil => cases q <;> rfl
  | cons a t ih => cases q with
    | nil => exact Bool.noConfusion h
    | cons b s =>
      simp only [sameShapeRow, Bool.and_eq_true, beq_iff_eq] at h
      simp only [List.zipWith_cons_cons, sameShapeRow, Bool.and_eq_true, beq_iff_eq]
      refine ⟨?_, ih s h.2⟩
      rw [List.length_zipWith, h.1, min_self]

/-- zipW3 on two equal-shape images keeps the first shape. -/
theorem sameShape3_zipW3 (f : F → F → F) (a b : FImg) (h : sameShape3 a b = true) :
    sameShape3 (zipW3 f a b) a = true := by
  induction a generalizing b with
  | nil => cases b <;> rfl
  | cons r rs ih => cases b with
    | nil => exact Bool.noConfusion h
    | cons t ts =>
      simp only [sameShape3, Bool.and_eq_true] at h
      simp only [zipW3, List.zipWith_cons_cons, sameShape3, Bool.and_eq_true]
      exact ⟨sameShapeRow_zipWith f r t h.1, ih ts h.2⟩

/-- A fitting mask broadcasts to the image shape (rows). -/
theorem sameShapeRow_mask_rep (nCh : Nat) (mr : List ℚ) (gr : List (List F))
    (h : maskFitsRow nCh mr gr = true) :
    sameShapeRow (mr.map (fun v => List.replicate nCh (some v))) gr = true := by
  induction mr generalizing gr with
  | nil => cases gr with
    | nil => rfl
    | cons px pxs => exact Bool.noConfusion h
  | cons v vs ih => cases gr with
    | nil => exact Bool.noConfusion h
    | cons px pxs =>
      simp only [maskFitsRow, Bool.and_eq_true, beq_iff_eq] at h
      simp only [List.map_cons, sameShapeRow, Bool.and_eq_true, beq_iff_eq]
      exact ⟨by rw [List.length_replicate, h.1], ih pxs h.2⟩

/-- A fitting mask broadcasts to the image shape. -/
theorem sameShape3_mask_rep (nCh : Nat) (m : Mask2) (g : FImg)
    (h : maskFits nCh m g = true) :
    sameShape3 (mask_rep m nCh) g = true := by
  induction m generalizing g with
  | nil => cases g with
    | nil => rfl
    | cons gr grs => exact Bool.noConfusion h
  | cons mr mrs ih => cases g with
    | nil => exact Bool.noConfusion h
    | cons gr grs =>
      simp only [maskFits, Bool.and_eq_true] at h
      simp only [mask_rep, List.map_cons, sameShape3, Bool.and_eq_true]
      exact ⟨sameShapeRow_mask_rep nCh mr gr h.1, ih grs h.2⟩

/-- Mask fit transfers along shape equality (rows). -/
theorem maskFitsRow_congr (nCh : Nat) (mr : List ℚ) (p q : List (List F))
    (hsh : sameShapeRow p q = true) (h : maskFitsRow nCh mr q = true) :
    maskFitsRow nCh mr p = true := by
  induction mr generalizing p q with
  | nil => cases q with
    | nil => cases p with
      | nil => rfl
      | cons a t => exact Bool.noConfusion hsh
    | cons b s => exact Bool.noConfusion h
  | cons v vs ih => cases q with
    | nil => exact Bool.noConfusion h
    | cons b s => cases p with
      | nil => exact Bool.noConfusion hsh
      | cons a t =>
        simp only [sameShapeRow, maskFitsRow, Bool.and_eq_true, beq_iff_eq] at hsh h ⊢
        exact ⟨hsh.1.trans h.1, ih t s hsh.2 h.2⟩

/-- Mask fit transfers along shape equality. -/
theorem maskFits_congr (nCh : Nat) (m : Mask2) (a b : FImg)
    (hsh : sameShape3 a b = true) (h : maskFits nCh m b = true) :
    maskFits nCh m a = true := by
  induction m generalizing a b with
  | nil => cases b with
    | nil => cases a with
      | nil => rfl
      | cons r rs => exact Bool.noConfusion hsh
    | cons t ts => exact Bool.noConfusion h
  | cons mr mrs ih => cases b with
    | nil => exact Bool.noConfusion h
    | cons t ts => cases a with
      | nil => exact Bool.noConfusion hsh
      | cons r rs =>
        simp only [sameShape3, maskFits, Bool.and_eq_true] at hsh h ⊢
        exact ⟨maskFitsRow_congr nCh mr r t hsh.1 h.1, ih rs ts hsh.2 h.2⟩

end Aml

namespace Aml

/-- Entry of a zipWith, as a bind over the two entries. -/
theorem getElem?_zipWith_bind {α β γ : Type} (f : α → β → γ) (a : List α)
    (b : List β) (i : Nat) :
    (List.zipWith f a b)[i]? = (a[i]?).bind (fun u => (b[i]?).map (f u)) := by
  rw [List.getElem?_zipWith]
  cases a[i]? <;> cases b[i]? <;> rfl

/-- Entry of a map3 image. -/
theorem get3?_map3 (f : F → F) (g : FImg) (r c ch : Nat) :
    get3? (map3 f g) r c ch = (get3? g r c ch).map f := by
  unfold get3? map3
  rw [List.getElem?_map]
  cases hr : g[r]? with
  | none => simp
  | some row =>
    simp only [Option.map_some', Option.some_bind]
    rw [List.getElem?_map]
    cases hc : row[c]? with
    | none => simp
    | some px =>
      simp only [Option.map_some', Option.some_bind]
      rw [List.getElem?_map]

/-- Entry of a zipW3 image. -/
theorem get3?_zipW3 (f : F → F → F) (a b : FImg) (r c ch : Nat) :
    get3? (zipW3 f a b) r c ch
      = (get3? a r c ch).bind (fun u => (get3? b r c ch).map (f u)) := by
  unfold get3? zipW3
  rw [getElem?_zipWith_bind]
  cases hra : a[r]? with
  | none => simp
  | some p => cases hrb : b[r]? with
    | none => simp
    | some q =>
      simp only [Option.map_some', Option.some_bind]
      rw [getElem?_zipWith_bind]
      cases hca : p[c]? with
      | none => simp
      | some u => cases hcb : q[c]? with
        | none => simp
        | some v =>
          simp only [Option.map_some', Option.some_bind]
          rw [getElem?_zipWith_bind]

/-- Entry of a broadcast mask. -/
theorem get3?_mask_rep (m : Mask2) (nCh : Nat) (r c ch : Nat) :
    get3? (mask_rep m nCh) r c ch
      = (get2? m r c).bind (fun v => if ch < nCh then some (some v) else none) := by
  unfold get3? get2? mask_rep
  rw [List.getElem?_map]
  cases hr : m[r]? with
  | none => simp
  | some mr =>
    simp only [Option.map_some', Option.some_bind]
    rw [List.getElem?_map]
    cases hc : mr[c]? with
    | none => simp
    | some v =>
      simp only [Option.map_some', Option.some_bind]
      rw [List.getElem?_replicate]

/-- Equal-length pixels have entries at the same channels. -/
theorem pix_none_congr (p q : List F) (h : p.length = q.length) (ch : Nat) :
    (p[ch]? = none) ↔ (q[ch]? = none) := by
  simp [List.getElem?_eq_none_iff, h]

/-- Equal-shape rows have entries at the same positions. -/
theorem row_none_congr (p q : List (List F)) (h : sameShapeRow p q = true) :
    ∀ (c ch : Nat), ((p[c]?).bind (fun px : List F => px[ch]?) = none
      ↔ (q[c]?).bind (fun px : List F => px[ch]?) = none) := by
  induction p generalizing q with
  | nil => cases q with
    | nil => intro c ch; rfl
    | cons b s => exact Bool.noConfusion h
  | cons a t ih => cases q with
    | nil => exact Bool.noConfusion h
    | cons b s =>
      simp only [sameShapeRow, Bool.and_eq_true, beq_iff_eq] at h
      intro c ch
      cases c with
      | zero =>
        simp only [List.getElem?_cons_zero, Option.some_bind]
        exact pix_none_congr a b h.1 ch
      | succ n =>
        simp only [List.getElem?_cons_succ]
        exact ih s h.2 n ch

/-- Equal-shape images have entries at the same positions. -/
theorem get3?_none_congr (a b : FImg) (h : sameShape3 a b = true) :
    ∀ (r c ch : Nat), (get3? a r c ch = none ↔ get3? b r c ch = none) := by
  induction a generalizing b with
  | nil => cases b with
    | nil => intro r c ch; rfl
    | cons t ts => exact Bool.noConfusion h
  | cons r0 rs ih => cases b with
    | nil => exact Bool.noConfusion h
    | cons t ts =>
      simp only [sameShape3, Bool.and_eq_true] at h
      intro r c ch
      cases r with
      | zero =>
        unfold get3?
        simp only [List.getElem?_cons_zero, Option.some_bind]
        exact row_none_congr r0 t h.1 c ch
      | succ n =>
        unfold get3?
        simp only [List.getElem?_cons_succ]
        exact ih ts h.2 n c ch

/-- A defined entry of an equal-shape image yields a defined entry. -/
theorem get3?_some_congr (a b : FImg) (h : sameShape3 a b = true)
    (r c ch : Nat) (e : F) (he : get3? a r c ch = some e) :
    ∃ e', get3? b r c ch = some e' := by
  cases hb : get3? b r c ch with
  | none =>
    rw [(get3?_none_congr a b h r c ch).2 hb] at he
    exact Option.noConfusion he
  | some e' => exact ⟨e', rfl⟩

/-- At a defined image entry, a fitting mask has a defined entry and the
channel index is within the broadcast width. -/
theorem maskFitsRow_entry (nCh : Nat) (mr : List ℚ) (gr : List (List F))
    (h : maskFitsRow nCh mr gr = true) :
    ∀ (c ch : Nat) (e : F), (gr[c]?).bind (fun px : List F => px[ch]?) = some e →
      (∃ v, mr[c]? = some v) ∧ ch < nCh := by
  induction mr generalizing gr with
  | nil => cases gr with
    | nil => intro c ch e he; simp at he
    | cons px pxs => exact Bool.noConfusion h
  | cons v vs ih => cases gr with
    | nil => exact Bool.noConfusion h
    | cons px pxs =>
      simp only [maskFitsRow, Bool.and_eq_true, beq_iff_eq] at h
      intro c ch e he
      cases c with
      | zero =>
        simp only [List.getElem?_cons_zero, Option.some_bind] at he
        obtain ⟨hlt, _⟩ := List.getElem?_eq_some_iff.1 he
        exact ⟨⟨v, List.getElem?_cons_zero⟩, h.1 ▸ hlt⟩
      | succ n =>
        simp only [List.getElem?_cons_succ] at he ⊢
        exact ih pxs h.2 n ch e he

/-- Image-level version of `maskFitsRow_entry`. -/
theorem maskFits_entry (nCh : Nat) (m : Mask2) (g : FImg)
    (h : maskFits nCh m g = true) :
    ∀ (r c ch : Nat) (e : F), get3? g r c ch = some e →
      (∃ v, get2? m r c = some v) ∧ ch < nCh := by
  induction m generalizing g with
  | nil => cases g with
    | nil => intro r c ch e he; simp [get3?] at he
    | cons gr grs => exact Bool.noConfusion h
  | cons mr mrs ih => cases g with
    | nil => exact Bool.noConfusion h
    | cons gr grs =>
      simp only [maskFits, Bool.and_eq_true] at h
      intro r c ch e he
      cases r with
      | zero =>
        unfold get3? at he
        simp only [List.getElem?_cons_zero, Option.some_bind] at he
        obtain ⟨hv, hch⟩ := maskFitsRow_entry nCh mr gr h.1 c ch e he
        refine ⟨?_, hch⟩
        obtain ⟨v, hv⟩ := hv
        exact ⟨v, by simp [get2?, List.getElem?_cons_zero, hv]⟩
      | succ n =>
        unfold get3? at he
        simp only [List.getElem?_cons_succ] at he
        obtain ⟨hv, hch⟩ := ih grs h.2 n c ch e he
        refine ⟨?_, hch⟩
        obtain ⟨v, hv⟩ := hv
        exact ⟨v, by simpa [get2?, List.getElem?_cons_succ] using hv⟩

/-- An entry of an image satisfying an `all3` bound satisfies the bound. -/
theorem all3_entry (p : F → Bool) (g : FImg) (h : all3 p g = true)
    (r c ch : Nat) (e : F) (he : get3? g r c ch = some e) : p e = true := by
  unfold get3? at he
  cases hr : g[r]? with
  | none => rw [hr] at he; simp at he
  | some row =>
    rw [hr] at he
    simp only [Option.some_bind] at he
    cases hc : row[c]? with
    | none => rw [hc] at he; simp at he
    | some px =>
      rw [hc] at he
      simp only [Option.some_bind] at he
      have hrow : row ∈ g := List.getElem?_mem hr
      have hpx : px ∈ row := List.getElem?_mem hc
      have hee : e ∈ px := List.getElem?_mem he
      unfold all3 at h
      rw [List.all_eq_true] at h
      have h1 := h row hrow
      rw [List.all_eq_true] at h1
      have h2 := h1 px hpx
      rw [List.all_eq_true] at h2
      exact h2 e hee

/-- Clipping a value already in [0,1] is the identity. -/
theorem fclip_of_in01 (a : F) (h : in01 a = true) : fclip a = a := by
  cases a with
  | none => exact Bool.noConfusion h
  | some q =>
    simp only [in01, Bool.and_eq_true, decide_eq_true_iff] at h
    simp [fclip, min_eq_left h.2, max_eq_right h.1]

end Aml

namespace Aml

/-- Common shape of one attack update: clip(s + coef * normalize(mask(gsel)))
with `gsel` the already direction-selected gradient.  `fgSlot` and
`iterStepImg` are definitionally instances of this expression. -/
def stepExpr (nrm : FImg → F) (gsel : FImg) (mask_i : Option Mask2)
    (nCh : Nat) (coef : ℚ) (s : FImg) : FImg :=
  map3 fclip (zipW3 fadd s
    (map3 (fun a => fmul a (some coef)) (normalizeBy nrm (applyMask mask_i nCh gsel))))

/-- fgSlot is a stepExpr instance. -/
theorem fgSlot_eq_stepExpr (nrm : FImg → F) (gradFn : FImg → List ℚ → FImg)
    (target : Bool) (mask_i : Option Mask2) (nCh : Nat)
    (x_in : FImg) (y_i : List ℚ) (mag : ℚ) :
    fgSlot nrm gradFn target mask_i nCh x_in y_i mag
      = stepExpr nrm (gradSelFg target (gradFn x_in y_i)) mask_i nCh mag x_in := rfl

/-- iterStepImg is a stepExpr instance. -/
theorem iterStep_eq_stepExpr (nrm : FImg → F) (gradFn : FImg → List ℚ → FImg)
    (target : Option Bool) (mask_i : Option Mask2) (nCh : Nat)
    (y_i : List ℚ) (step_size : ℚ) (x_cur : FImg) :
    iterStepImg nrm gradFn target mask_i nCh y_i step_size x_cur
      = stepExpr nrm (gradSelIter target (gradFn x_cur y_i)) mask_i nCh step_size x_cur := rfl

/-- Direction selection preserves the shape (`iterative` flavour). -/
theorem sameShape3_gradSelIter (target : Option Bool) (G s : FImg)
    (h : sameShape3 G s = true) : sameShape3 (gradSelIter target G) s = true := by
  unfold gradSelIter
  by_cases ht : target.isSome
  · simp only [ht, if_true]
    unfold fneg3
    exact sameShape3_trans _ _ _ (sameShape3_map3 _ _) h
  · simp only [ht, if_false]
    exact h

/-- Direction selection preserves the shape (`fg` flavour). -/
theorem sameShape3_gradSelFg (target : Bool) (G s : FImg)
    (h : sameShape3 G s = true) : sameShape3 (gradSelFg target G) s = true := by
  unfold gradSelFg
  by_cases ht : target
  · simp only [ht, if_true]
    unfold fneg3
    exact sameShape3_trans _ _ _ (sameShape3_map3 _ _) h
  · simp only [ht, if_false]
    exact h

/-- A step keeps the shape of the current sample. -/
theorem stepExpr_shape (nrm : FImg → F) (gsel : FImg) (mask_i : Option Mask2)
    (nCh : Nat) (coef : ℚ) (s : FImg)
    (hgsh : sameShape3 gsel s = true)
    (hfit : ∀ m, mask_i = some m → maskFits nCh m s = true) :
    sameShape3 (stepExpr nrm gsel mask_i nCh coef s) s = true := by
  have hA : sameShape3 (applyMask mask_i nCh gsel) s = true := by
    cases mask_i with
    | none => exact hgsh
    | some m =>
      have hmr : sameShape3 (mask_rep m nCh) s = true :=
        sameShape3_mask_rep nCh m s (hfit m rfl)
      have hgm : sameShape3 gsel (mask_rep m nCh) = true :=
        sameShape3_trans _ _ _ hgsh (sameShape3_symm _ _ hmr)
      exact sameShape3_trans _ _ _ (sameShape3_zipW3 fmul _ _ hgm) hgsh
  have hN : sameShape3 (normalizeBy nrm (applyMask mask_i nCh gsel)) s = true := by
    unfold normalizeBy
    exact sameShape3_trans _ _ _ (sameShape3_map3 _ _) hA
  have hsc : sameShape3 (map3 (fun a => fmul a (some coef))
      (normalizeBy nrm (applyMask mask_i nCh gsel))) s = true :=
    sameShape3_trans _ _ _ (sameShape3_map3 _ _) hN
  have hZ : sameShape3 (zipW3 fadd s
      (map3 (fun a => fmul a (some coef))
        (normalizeBy nrm (applyMask mask_i nCh gsel)))) s = true :=
    sameShape3_zipW3 fadd _ _ (sameShape3_symm _ _ hsc)
  unfold stepExpr
  exact sameShape3_trans _ _ _ (sameShape3_map3 _ _) hZ

end Aml

namespace Aml

/-- Core frame property: a step with a fitting mask leaves every pixel at a
mask-zero position unchanged, provided the sample is finite in [0,1], the
selected gradient is finite and shape-compatible, and the norm is finite
nonzero (non-degenerate). -/
theorem stepExpr_mask_zero (nrm : FImg → F) (gsel : FImg) (m : Mask2)
    (nCh : Nat) (coef : ℚ) (s : FImg)
    (hs : all3 in01 s = true)
    (hfin : all3 isFin gsel = true)
    (hgsh : sameShape3 gsel s = true)
    (hn : ∀ g, all3 isFin g = true → ∃ c, nrm g = some c ∧ c ≠ 0)
    (hfit : maskFits nCh m s = true)
    (r c ch : Nat) (hm0 : get2? m r c = some 0) :
    get3? (stepExpr nrm gsel (some m) nCh coef s) r c ch = get3? s r c ch := by
  have hAeq : applyMask (some m) nCh gsel = zipW3 fmul gsel (mask_rep m nCh) := rfl
  have hAfin : all3 isFin (zipW3 fmul gsel (mask_rep m nCh)) = true := by
    rw [← hAeq]
    exact all3_isFin_applyMask (some m) nCh gsel hfin
  obtain ⟨c0, hc0, hc0ne⟩ := hn _ hAfin
  unfold stepExpr
  rw [hAeq, get3?_map3, get3?_zipW3, get3?_map3]
  rw [show normalizeBy nrm (zipW3 fmul gsel (mask_rep m nCh))
      = map3 (fun a => fdiv a (nrm (zipW3 fmul gsel (mask_rep m nCh))))
        (zipW3 fmul gsel (mask_rep m nCh)) from rfl]
  rw [get3?_map3, hc0, get3?_zipW3, get3?_mask_rep, hm0]
  cases hxe : get3? s r c ch with
  | none => simp
  | some xe =>
    have hxe01 : in01 xe = true := all3_entry in01 s hs r c ch xe hxe
    obtain ⟨ge, hge⟩ := get3?_some_congr s gsel (sameShape3_symm _ _ hgsh) r c ch xe hxe
    have hgefin : isFin ge = true := all3_entry isFin gsel hfin r c ch ge hge
    obtain ⟨_, hch⟩ := maskFits_entry nCh m s hfit r c ch xe hxe
    rw [hge]
    cases ge with
    | none => exact Bool.noConfusion hgefin
    | some gq =>
      cases xe with
      | none => exact Bool.noConfusion hxe01
      | some qx =>
        simp only [Option.some_bind, Option.map_some', if_pos hch]
        simp only [fmul, mul_zero, fdiv, if_neg hc0ne, zero_div, zero_mul, fadd, add_zero]
        rw [show fclip (some qx) = some qx from fclip_of_in01 (some qx) hxe01]

end Aml

namespace Aml

/-- One `fg` magnitude slot leaves mask-zero pixels unchanged
(non-degenerate hypotheses as in `stepExpr_mask_zero`). -/
theorem fgSlot_mask_zero (nrm : FImg → F) (gradFn : FImg → List ℚ → FImg)
    (target : Bool) (mi : Mask2) (nCh : Nat) (xi : FImg) (yi : List ℚ) (mag : ℚ)
    (hxi : all3 in01 xi = true)
    (hg : ∀ s yv, all3 isFin (gradFn s yv) = true)
    (hsh : ∀ s yv, sameShape3 (gradFn s yv) s = true)
    (hn : ∀ g, all3 isFin g = true → ∃ c, nrm g = some c ∧ c ≠ 0)
    (hfiti : maskFits nCh mi xi = true)
    (r c ch : Nat) (h0 : get2? mi r c = some 0) :
    get3? (fgSlot nrm gradFn target (some mi) nCh xi yi mag) r c ch
      = get3? xi r c ch := by
  rw [fgSlot_eq_stepExpr]
  exact stepExpr_mask_zero nrm _ mi nCh mag xi hxi
    (all3_isFin_gradSelFg _ _ (hg xi yi)) (sameShape3_gradSelFg _ _ _ (hsh xi yi))
    hn hfiti r c ch h0

/-- A per-sample `iterative` run with a fitting mask keeps the shape, keeps
all entries in [0,1], and leaves mask-zero pixels unchanged, for every step
count. -/
theorem iterSample_mask_zero (nrm : FImg → F) (gradFn : FImg → List ℚ → FImg)
    (target : Option Bool) (m : Mask2) (nCh : Nat) (y_i : List ℚ)
    (step_size : ℚ) (x_in : FImg)
    (hx : all3 in01 x_in = true)
    (hg : ∀ s yv, all3 isFin (gradFn s yv) = true)
    (hsh : ∀ s yv, sameShape3 (gradFn s yv) s = true)
    (hn : ∀ g, all3 isFin g = true → ∃ c, nrm g = some c ∧ c ≠ 0)
    (hfit : maskFits nCh m x_in = true) :
    ∀ n, sameShape3 (iterSample nrm gradFn target (some m) nCh y_i n step_size x_in) x_in = true
      ∧ all3 in01 (iterSample nrm gradFn target (some m) nCh y_i n step_size x_in) = true
      ∧ ∀ (r c ch : Nat), get2? m r c = some 0 →
          get3? (iterSample nrm gradFn target (some m) nCh y_i n step_size x_in) r c ch
            = get3? x_in r c ch := by
  intro n
  induction n with
  | zero =>
    unfold iterSample
    simp only [Function.iterate_zero_apply]
    exact ⟨sameShape3_refl _, hx, fun r c ch _ => trivial⟩
  | succ k ih =>
    obtain ⟨ihsh, ih01, ihag⟩ := ih
    unfold iterSample at ihsh ih01 ihag ⊢
    rw [Function.iterate_succ_apply']
    have hgselfin : all3 isFin (gradSelIter target
        (gradFn ((iterStepImg nrm gradFn target (some m) nCh y_i step_size)^[k] x_in) y_i)) = true :=
      all3_isFin_gradSelIter _ _ (hg _ y_i)
    have hgselsh : sameShape3 (gradSelIter target
        (gradFn ((iterStepImg nrm gradFn target (some m) nCh y_i step_size)^[k] x_in) y_i))
        ((iterStepImg nrm gradFn target (some m) nCh y_i step_size)^[k] x_in) = true :=
      sameShape3_gradSelIter _ _ _ (hsh _ y_i)
    have hfitc : maskFits nCh m
        ((iterStepImg nrm gradFn target (some m) nCh y_i step_size)^[k] x_in) = true :=
      maskFits_congr nCh m _ x_in ihsh hfit
    refine ⟨?_, ?_, ?_⟩
    · rw [iterStep_eq_stepExpr]
      refine sameShape3_trans _ _ _ ?_ ihsh
      exact stepExpr_shape nrm _ (some m) nCh step_size _ hgselsh
        (fun m' hm' => by injection hm' with h; rw [← h]; exact hfitc)
    · exact iterStep_in01 nrm gradFn target (some m) nCh y_i step_size hg hn _ ih01
    · intro r c ch h0
      rw [iterStep_eq_stepExpr]
      rw [stepExpr_mask_zero nrm _ m nCh step_size _ ih01 hgselfin hgselsh hn hfitc r c ch h0]
      exact ihag r c ch h0

end Aml

namespace Aml

/-- Unfolding equation for `fg` with a mask batch. -/
theorem fg_some_mask (nrm : FImg → F) (gradFn : FImg → List ℚ → FImg)
    (x : List FImg) (y : List (List ℚ)) (mag_list : List ℚ)
    (target : Bool) (ms : List Mask2) :
    fg nrm gradFn x y mag_list target (some ms)
      = mag_list.map (fun mag => ((x.zip y).zip ms).map (fun q =>
          fgSlot nrm gradFn target (some q.2) N_CHANNEL q.1.1 q.1.2 mag)) := rfl

/-- Unfolding equation for `iterative` with a mask batch. -/
theorem iterative_some_mask (nrm : FImg → F) (gradFn : FImg → List ℚ → FImg)
    (x : List FImg) (y : List (List ℚ)) (n_step : Nat) (step_size : ℚ)
    (target : Option Bool) (ms : List Mask2) :
    iterative nrm gradFn x y n_step step_size target (some ms)
      = ((x.zip y).zip ms).map (fun q =>
          iterSample nrm gradFn target (some q.2) N_CHANNEL q.1.2 n_step step_size q.1.1) := rfl

/-- C5 amended: when a per-sample mask batch is supplied and the run is
non-degenerate (finite gradients of the sample shape, norm finite and
nonzero), every output pixel of `fg` (at every magnitude) and of
`iterative` at a position where the sample mask is 0 equals the
corresponding input pixel, for inputs with entries in [0,1]. -/
theorem mask_zero_frame (nrm : FImg → F) (gradFn : FImg → List ℚ → FImg)
    (x : List FImg) (y : List (List ℚ)) (mag_list : List ℚ)
    (fgTarget : Bool) (itTarget : Option Bool)
    (ms : List Mask2) (n_step : Nat) (step_size : ℚ)
    (hx : ∀ xi ∈ x, all3 in01 xi = true)
    (hg : ∀ s yv, all3 isFin (gradFn s yv) = true)
    (hsh : ∀ s yv, sameShape3 (gradFn s yv) s = true)
    (hn : ∀ g, all3 isFin g = true → ∃ c, nrm g = some c ∧ c ≠ 0)
    (hfit : ∀ (i : Nat) (xi : FImg) (mi : Mask2), x[i]? = some xi → ms[i]? = some mi →
      maskFits N_CHANNEL mi xi = true) :
    (∀ row ∈ fg nrm gradFn x y mag_list fgTarget (some ms),
      ∀ (i : Nat) (slot xi : FImg) (mi : Mask2),
        row[i]? = some slot → x[i]? = some xi → ms[i]? = some mi →
        ∀ (r c ch : Nat), get2? mi r c = some 0 →
          get3? slot r c ch = get3? xi r c ch) ∧
    (∀ (i : Nat) (out xi : FImg) (mi : Mask2),
      (iterative nrm gradFn x y n_step step_size itTarget (some ms))[i]? = some out →
      x[i]? = some xi → ms[i]? = some mi →
      ∀ (r c ch : Nat), get2? mi r c = some 0 →
        get3? out r c ch = get3? xi r c ch) := by
  constructor
  · intro row hrow i slot xi mi hslot hxi hmi r c ch h0
    rw [fg_some_mask] at hrow
    obtain ⟨mag, hmag, rfl⟩ := List.mem_map.1 hrow
    simp only [List.getElem?_map, List.zip_eq_zipWith, getElem?_zipWith_bind] at hslot
    cases hyi : y[i]? with
    | none => rw [hxi, hyi] at hslot; simp at hslot
    | some yi =>
      rw [hxi, hyi, hmi] at hslot
      simp only [Option.some_bind, Option.map_some'] at hslot
      have hslot' : fgSlot nrm gradFn fgTarget (some mi) N_CHANNEL xi yi mag = slot :=
        Option.some.inj hslot
      rw [← hslot']
      exact fgSlot_mask_zero nrm gradFn fgTarget mi N_CHANNEL xi yi mag
        (hx xi (List.getElem?_mem hxi)) hg hsh hn (hfit i xi mi hxi hmi) r c ch h0
  · intro i out xi mi hout hxi hmi r c ch h0
    rw [iterative_some_mask] at hout
    simp only [List.getElem?_map, List.zip_eq_zipWith, getElem?_zipWith_bind] at hout
    cases hyi : y[i]? with
    | none => rw [hxi, hyi] at hout; simp at hout
    | some yi =>
      rw [hxi, hyi, hmi] at hout
      simp only [Option.some_bind, Option.map_some'] at hout
      have hout' : iterSample nrm gradFn itTarget (some mi) N_CHANNEL yi n_step step_size xi
          = out := Option.some.inj hout
      rw [← hout']
      exact (iterSample_mask_zero nrm gradFn itTarget mi N_CHANNEL yi step_size xi
        (hx xi (List.getElem?_mem hxi)) hg hsh hn (hfit i xi mi hxi hmi) n_step).2.2 r c ch h0

end Aml

namespace Aml

/-- C5 counterexample: with an all-zero supplied mask (which the attacks do
not validate), the masked gradient is the zero array, its Euclidean norm is
0, the normalization produces NaN everywhere — including at the mask-zero
positions — so the output pixel at a mask-zero position is NOT the input
pixel: the claim fails without a non-degeneracy assumption. -/
theorem mask_zero_frame_cex :
    fg nrmW (fun s _ => map3 (fun _ => some 1) s)
      [[[[some (1/2), some (1/2), some (1/2)]]]] [[1]] [1/10] false
      (some [[[0]]])
      = [[[[[none, none, none]]]]] ∧
    get2? [[0]] 0 0 = some 0 ∧
    get3? [[[none, none, none]]] 0 0 0 ≠
      get3? [[[some ((1:ℚ)/2), some (1/2), some (1/2)]]] 0 0 0 := by
  refine ⟨?_, by decide, by decide⟩
  norm_num [fg, fgSlot, fgNormGrad, normalizeBy, applyMask, gradSelFg,
    map3, zipW3, fneg3, fadd, fmul, fdiv, fclip, nrmW, all3, mask_rep, N_CHANNEL,
    List.replicate_succ]

/-- Witness for the amended C5: a 1×2-pixel sample, mask 0 on the first
pixel and 1 on the second; the first pixel of the fg output equals the
input pixel. -/
theorem mask_zero_frame_witness :
    get3? [[[some (0:ℚ), some 0, some 0], [some (1/10), some (1/10), some (1/10)]]] 0 0 0
      = get3? [[[some (0:ℚ), some 0, some 0], [some 0, some 0, some 0]]] 0 0 0 := by
  have hfg : fg (fun _ => some 1) (fun s _ => map3 (fun _ => some 1) s)
      [[[[some (0:ℚ), some 0, some 0], [some 0, some 0, some 0]]]] [[1]] [1/10] false
      (some [[[0, 1]]])
      = [[[[[some (0:ℚ), some 0, some 0], [some (1/10), some (1/10), some (1/10)]]]]] := by
    norm_num [fg, fgSlot, fgNormGrad, normalizeBy, applyMask, gradSelFg,
      map3, zipW3, fneg3, fadd, fmul, fdiv, fclip, mask_rep, N_CHANNEL,
      List.replicate_succ]
  refine (mask_zero_frame (fun _ => some 1) (fun s _ => map3 (fun _ => some 1) s)
      [[[[some (0:ℚ), some 0, some 0], [some 0, some 0, some 0]]]] [[1]] [1/10]
      false none [[[0, 1]]] 20 (1/20) ?_ ?_ ?_ ?_ ?_).1
      [[[[some (0:ℚ), some 0, some 0], [some (1/10), some (1/10), some (1/10)]]]]
      ?_ 0 _ _ [[0, 1]] ?_ ?_ ?_ 0 0 0 ?_
  · intro xi hxi
    rw [List.mem_singleton.1 hxi]
    norm_num [all3, in01]
  · intro s yv
    exact all3_map3_const_fin 1 s
  · intro s yv
    exact sameShape3_map3 _ s
  · intro g _
    exact ⟨1, rfl, one_ne_zero⟩
  · intro i xi mi h1 h2
    cases i with
    | zero =>
      have hx1 : xi = [[[some (0:ℚ), some 0, some 0], [some 0, some 0, some 0]]] :=
        (Option.some.inj h1).symm
      have hm1 : mi = [[0, 1]] := (Option.some.inj h2).symm
      rw [hx1, hm1]
      decide
    | succ n => exact Option.noConfusion h1
  · rw [hfg]
    exact List.mem_singleton.2 rfl
  · rfl
  · rfl
  · rfl
  · decide

end Aml

namespace Aml

/-- Adding an all-zero array of the same shape and clipping leaves a finite
[0,1] pixel vector unchanged. -/
theorem clip_add_zero_pix (p z : List F) (hlen : p.length = z.length)
    (hz : z.all (fun e => e == some 0) = true) (hp : p.all in01 = true) :
    (List.zipWith fadd p z).map fclip = p := by
  induction p generalizing z with
  | nil => cases z with
    | nil => rfl
    | cons b s => simp at hlen
  | cons a t ih =>
    cases z with
    | nil => simp at hlen
    | cons b s =>
      simp only [List.length_cons] at hlen
      simp only [List.all_cons, Bool.and_eq_true, beq_iff_eq] at hz hp
      simp only [List.zipWith_cons_cons, List.map_cons]
      rw [ih s (by omega) hz.2 hp.2]
      rw [hz.1]
      cases a with
      | none => exact Bool.noConfusion hp.1
      | some q =>
        show fclip (some (q + 0)) :: t = some q :: t
        rw [add_zero, fclip_of_in01 _ hp.1]

/-- Row version of `clip_add_zero_pix`. -/
theorem clip_add_zero_row (p z : List (List F)) (hsh : sameShapeRow z p = true)
    (hz : z.all (fun px => px.all (fun e => e == some 0)) = true)
    (hp : p.all (fun px => px.all in01) = true) :
    (List.zipWith (List.zipWith fadd) p z).map (List.map fclip) = p := by
  induction p generalizing z with
  | nil => cases z with
    | nil => rfl
    | cons b s => exact Bool.noConfusion hsh
  | cons a t ih => cases z with
    | nil => exact Bool.noConfusion hsh
    | cons b s =>
      simp only [sameShapeRow, Bool.and_eq_true, beq_iff_eq] at hsh
      simp only [List.all_cons, Bool.and_eq_true] at hz hp
      simp only [List.zipWith_cons_cons, List.map_cons]
      rw [clip_add_zero_pix a b hsh.1.symm hz.1 hp.1, ih s hsh.2 hz.2 hp.2]

/-- Adding an all-zero image of the same shape and clipping leaves a finite
[0,1] image unchanged (this is the step body with a zero coefficient). -/
theorem clip_add_zero (xc z : FImg) (hsh : sameShape3 z xc = true)
    (hz : all3 (fun e => e == some 0) z = true) (hx : all3 in01 xc = true) :
    map3 fclip (zipW3 fadd xc z) = xc := by
  unfold all3 at hz hx
  unfold map3 zipW3
  induction xc generalizing z with
  | nil => cases z with
    | nil => rfl
    | cons w ws => exact Bool.noConfusion hsh
  | cons r rs ih => cases z with
    | nil => exact Bool.noConfusion hsh
    | cons w ws =>
      simp only [sameShape3, Bool.and_eq_true] at hsh
      simp only [List.all_cons, Bool.and_eq_true] at hz hx
      simp only [List.zipWith_cons_cons, List.map_cons]
      rw [clip_add_zero_row r w hsh.1 hz.1 hx.1, ih ws hsh.2 hz.2 hx.2]

/-- Masking preserves the shape of the sample. -/
theorem applyMask_shape (gsel : FImg) (mask_i : Option Mask2) (nCh : Nat) (s : FImg)
    (hgsh : sameShape3 gsel s = true)
    (hfit : ∀ m, mask_i = some m → maskFits nCh m s = true) :
    sameShape3 (applyMask mask_i nCh gsel) s = true := by
  cases mask_i with
  | none => exact hgsh
  | some m =>
    have hmr : sameShape3 (mask_rep m nCh) s = true :=
      sameShape3_mask_rep nCh m s (hfit m rfl)
    have hgm : sameShape3 gsel (mask_rep m nCh) = true :=
      sameShape3_trans _ _ _ hgsh (sameShape3_symm _ _ hmr)
    exact sameShape3_trans _ _ _ (sameShape3_zipW3 fmul _ _ hgm) hgsh

/-- A step with coefficient 0 is the identity on a finite [0,1] sample
(non-degenerate norm): the normalized gradient is multiplied by 0, added,
and the clip of an unchanged in-range value changes nothing. -/
theorem stepExpr_zero_coef (nrm : FImg → F) (gsel : FImg) (mask_i : Option Mask2)
    (nCh : Nat) (s : FImg)
    (hs : all3 in01 s = true) (hfin : all3 isFin gsel = true)
    (hgsh : sameShape3 gsel s = true)
    (hn : ∀ g, all3 isFin g = true → ∃ c, nrm g = some c ∧ c ≠ 0)
    (hfit : ∀ m, mask_i = some m → maskFits nCh m s = true) :
    stepExpr nrm gsel mask_i nCh 0 s = s := by
  have hA : sameShape3 (applyMask mask_i nCh gsel) s = true :=
    applyMask_shape gsel mask_i nCh s hgsh hfit
  have hAfin : all3 isFin (applyMask mask_i nCh gsel) = true :=
    all3_isFin_applyMask mask_i nCh gsel hfin
  obtain ⟨c0, hc0, hc0ne⟩ := hn _ hAfin
  have hNfin : all3 isFin (normalizeBy nrm (applyMask mask_i nCh gsel)) = true :=
    all3_isFin_normalizeBy nrm _ c0 hc0 hc0ne hAfin
  have hNsh : sameShape3 (normalizeBy nrm (applyMask mask_i nCh gsel)) s = true := by
    unfold normalizeBy
    exact sameShape3_trans _ _ _ (sameShape3_map3 _ _) hA
  have hzero : all3 (fun e => e == some 0)
      (map3 (fun a => fmul a (some 0)) (normalizeBy nrm (applyMask mask_i nCh gsel))) = true := by
    refine all3_map3 _ isFin _ ?_ _ hNfin
    intro a ha
    cases a with
    | none => exact Bool.noConfusion ha
    | some q => simp [fmul]
  have hscsh : sameShape3
      (map3 (fun a => fmul a (some 0)) (normalizeBy nrm (applyMask mask_i nCh gsel))) s = true :=
    sameShape3_trans _ _ _ (sameShape3_map3 _ _) hNsh
  unfold stepExpr
  exact clip_add_zero s _ hscsh hzero hs

/-- A per-sample `iterative` run with `step_size = 0` returns the input
unchanged. -/
theorem iterSample_zero_step (nrm : FImg → F) (gradFn : FImg → List ℚ → FImg)
    (target : Option Bool) (mask_i : Option Mask2) (nCh : Nat) (yi : List ℚ)
    (xi : FImg) (n : Nat)
    (hxi : all3 in01 xi = true)
    (hg : ∀ s yv, all3 isFin (gradFn s yv) = true)
    (hsh : ∀ s yv, sameShape3 (gradFn s yv) s = true)
    (hn : ∀ g, all3 isFin g = true → ∃ c, nrm g = some c ∧ c ≠ 0)
    (hfit : ∀ m, mask_i = some m → maskFits nCh m xi = true) :
    iterSample nrm gradFn target mask_i nCh yi n 0 xi = xi := by
  unfold iterSample
  apply Function.iterate_fixed
  rw [iterStep_eq_stepExpr]
  exact stepExpr_zero_coef nrm _ mask_i nCh xi hxi
    (all3_isFin_gradSelIter _ _ (hg xi yi)) (sameShape3_gradSelIter _ _ _ (hsh xi yi))
    hn hfit

/-- A single `fg` slot with magnitude 0 returns the input unchanged. -/
theorem fgSlot_zero_mag (nrm : FImg → F) (gradFn : FImg → List ℚ → FImg)
    (target : Bool) (mask_i : Option Mask2) (nCh : Nat) (yi : List ℚ) (xi : FImg)
    (hxi : all3 in01 xi = true)
    (hg : ∀ s yv, all3 isFin (gradFn s yv) = true)
    (hsh : ∀ s yv, sameShape3 (gradFn s yv) s = true)
    (hn : ∀ g, all3 isFin g = true → ∃ c, nrm g = some c ∧ c ≠ 0)
    (hfit : ∀ m, mask_i = some m → maskFits nCh m xi = true) :
    fgSlot nrm gradFn target mask_i nCh xi yi 0 = xi := by
  rw [fgSlot_eq_stepExpr]
  exact stepExpr_zero_coef nrm _ mask_i nCh xi hxi
    (all3_isFin_gradSelFg _ _ (hg xi yi)) (sameShape3_gradSelFg _ _ _ (hsh xi yi))
    hn hfit

end Aml

namespace Aml

/-- C8: with inputs in [0,1] and non-degenerate gradients (finite, of the
sample shape, with finite nonzero norm), `iterative` with `step_size = 0`
returns the input batch unchanged, and every magnitude slot of `fg` with an
all-zero magnitude list is the (clipped) input batch unchanged. -/
theorem noop_attack (nrm : FImg → F) (gradFn : FImg → List ℚ → FImg)
    (x : List FImg) (y : List (List ℚ)) (mag_list : List ℚ)
    (fgTarget : Bool) (itTarget : Option Bool) (mask : Option (List Mask2)) (n_step : Nat)
    (hx : ∀ xi ∈ x, all3 in01 xi = true)
    (hg : ∀ s yv, all3 isFin (gradFn s yv) = true)
    (hsh : ∀ s yv, sameShape3 (gradFn s yv) s = true)
    (hn : ∀ g, all3 isFin g = true → ∃ c, nrm g = some c ∧ c ≠ 0)
    (hy : x.length ≤ y.length)
    (hmlen : ∀ ms, mask = some ms → x.length ≤ ms.length)
    (hfit : ∀ ms, mask = some ms → ∀ (i : Nat) (xi : FImg) (mi : Mask2),
        x[i]? = some xi → ms[i]? = some mi → maskFits N_CHANNEL mi xi = true)
    (hmag : ∀ mag ∈ mag_list, mag = (0 : ℚ)) :
    iterative nrm gradFn x y n_step 0 itTarget mask = x ∧
    ∀ row ∈ fg nrm gradFn x y mag_list fgTarget mask, row = x := by
  cases mask with
  | none =>
    constructor
    · rw [show iterative nrm gradFn x y n_step 0 itTarget none
          = (x.zip y).map (fun p =>
              iterSample nrm gradFn itTarget none N_CHANNEL p.2 n_step 0 p.1) from rfl]
      apply List.ext_getElem?
      intro i
      rw [List.getElem?_map, List.zip_eq_zipWith, getElem?_zipWith_bind]
      cases hxi : x[i]? with
      | none => simp
      | some xi =>
        have hip : i < x.length := by
          obtain ⟨h, _⟩ := List.getElem?_eq_some_iff.1 hxi
          exact h
        cases hyi : y[i]? with
        | none =>
          rw [List.getElem?_eq_none_iff] at hyi
          omega
        | some yi =>
          simp only [Option.some_bind, Option.map_some']
          rw [iterSample_zero_step nrm gradFn itTarget none N_CHANNEL yi xi n_step
            (hx xi (List.getElem?_mem hxi)) hg hsh hn (fun m hm => Option.noConfusion hm)]
    · intro row hrow
      rw [show fg nrm gradFn x y mag_list fgTarget none
          = mag_list.map (fun mag => (x.zip y).map (fun p =>
              fgSlot nrm gradFn fgTarget none N_CHANNEL p.1 p.2 mag)) from rfl] at hrow
      obtain ⟨mag, hmagmem, rfl⟩ := List.mem_map.1 hrow
      have hmag0 : mag = 0 := hmag mag hmagmem
      subst hmag0
      apply List.ext_getElem?
      intro i
      rw [List.getElem?_map, List.zip_eq_zipWith, getElem?_zipWith_bind]
      cases hxi : x[i]? with
      | none => simp
      | some xi =>
        have hip : i < x.length := by
          obtain ⟨h, _⟩ := List.getElem?_eq_some_iff.1 hxi
          exact h
        cases hyi : y[i]? with
        | none =>
          rw [List.getElem?_eq_none_iff] at hyi
          omega
        | some yi =>
          simp only [Option.some_bind, Option.map_some']
          rw [fgSlot_zero_mag nrm gradFn fgTarget none N_CHANNEL yi xi
            (hx xi (List.getElem?_mem hxi)) hg hsh hn (fun m hm => Option.noConfusion hm)]
  | some ms =>
    constructor
    · rw [iterative_some_mask]
      apply List.ext_getElem?
      intro i
      simp only [List.getElem?_map, List.zip_eq_zipWith, getElem?_zipWith_bind]
      cases hxi : x[i]? with
      | none => simp
      | some xi =>
        have hip : i < x.length := by
          obtain ⟨h, _⟩ := List.getElem?_eq_some_iff.1 hxi
          exact h
        cases hyi : y[i]? with
        | none =>
          rw [List.getElem?_eq_none_iff] at hyi
          omega
        | some yi =>
          cases hmi : ms[i]? with
          | none =>
            rw [List.getElem?_eq_none_iff] at hmi
            have := hmlen ms rfl
            omega
          | some mi =>
            simp only [Option.some_bind, Option.map_some']
            rw [iterSample_zero_step nrm gradFn itTarget (some mi) N_CHANNEL yi xi n_step
              (hx xi (List.getElem?_mem hxi)) hg hsh hn
              (fun m hm => by injection hm with h; rw [← h]; exact hfit ms rfl i xi mi hxi hmi)]
    · intro row hrow
      rw [fg_some_mask] at hrow
      obtain ⟨mag, hmagmem, rfl⟩ := List.mem_map.1 hrow
      have hmag0 : mag = 0 := hmag mag hmagmem
      subst hmag0
      apply List.ext_getElem?
      intro i
      simp only [List.getElem?_map, List.zip_eq_zipWith, getElem?_zipWith_bind]
      cases hxi : x[i]? with
      | none => simp
      | some xi =>
        have hip : i < x.length := by
          obtain ⟨h, _⟩ := List.getElem?_eq_some_iff.1 hxi
          exact h
        cases hyi : y[i]? with
        | none =>
          rw [List.getElem?_eq_none_iff] at hyi
          omega
        | some yi =>
          cases hmi : ms[i]? with
          | none =>
            rw [List.getElem?_eq_none_iff] at hmi
            have := hmlen ms rfl
            omega
          | some mi =>
            simp only [Option.some_bind, Option.map_some']
            rw [fgSlot_zero_mag nrm gradFn fgTarget (some mi) N_CHANNEL yi xi
              (hx xi (List.getElem?_mem hxi)) hg hsh hn
              (fun m hm => by injection hm with h; rw [← h]; exact hfit ms rfl i xi mi hxi hmi)]

end Aml

namespace Aml

/-- Witness for C8: a one-sample batch at 1/2 with unit gradient and unit
norm is returned unchanged by a 3-step `iterative` run with zero step
size. -/
theorem noop_attack_witness :
    iterative (fun _ => some 1) (fun s _ => map3 (fun _ => some 1) s)
      [[[[some ((1 : ℚ)/2)]]]] [[1]] 3 0 (some true) none
      = [[[[some ((1 : ℚ)/2)]]]] :=
  (noop_attack (fun _ => some 1) (fun s _ => map3 (fun _ => some 1) s)
    [[[[some ((1 : ℚ)/2)]]]] [[1]] [0, 0] false (some true) none 3
    (fun xi hxi => by rw [List.mem_singleton.1 hxi]; norm_num [all3, in01])
    (fun s _ => all3_map3_const_fin 1 s)
    (fun s _ => sameShape3_map3 _ s)
    (fun g _ => ⟨1, rfl, one_ne_zero⟩)
    (by decide)
    (fun ms hm => Option.noConfusion hm)
    (fun ms hm => Option.noConfusion hm)
    (fun mag hm => by
      rcases List.mem_cons.1 hm with h | h
      · exact h
      · exact List.mem_singleton.1 h)).1

end Aml
